import Mathlib

/-!
Shallow embedding of the rustbotics graph engine (identifier registry,
graph core, mutators, breadth-first traversal, path finding) together
with theorems settling the specification claims.

Machine integers (`usize`) are modelled as `Nat` with the representable
maximum made explicit as `USIZE_MAX`; Rust panics are modelled as the
`Except.error` branch; Rust `HashSet` as `Finset Nat`; `LinkedList` and
`Vec` as `List`; `HashMap` as an association list (`AList` below) whose
only observable operations are key lookup, insertion and removal.
Loops that are not structurally recursive in the source are embedded
with an explicit fuel argument whose default value is proven sufficient
(`acquireGo_fuel_eq` and friends), so every definition computes.
-/

namespace Rustbotics

/-- The largest value representable in a 64-bit `usize`. -/
def USIZE_MAX : Nat := 2 ^ 64 - 1

/-- Identifier Registry failures, from `idregistry.rs`. -/
inductive IdentifierRegistryFailure where
  | OutOfIdentifiers
  | InvalidIdentifier
  | IdentiferAlreadyReleased
deriving DecidableEq

/-- State of `ExplicitIntegralIdentifierRegistry` from `idregistry.rs`:
the set of all minted ids, the set of currently free ids, the free-list
(front of the Rust `LinkedList` is the head of the Lean list), and the
watermark `min_unallocated_id`. -/
structure ExplicitIntegralIdentifierRegistry where
  all_ids : Finset Nat
  free_ids : Finset Nat
  free_id_alloc_chain : List Nat
  min_unallocated_id : Nat
deriving DecidableEq

namespace ExplicitIntegralIdentifierRegistry

/-- `null_registry()` from `idregistry.rs`: everything empty, watermark 0. -/
def null_registry : ExplicitIntegralIdentifierRegistry :=
  { all_ids := ∅, free_ids := ∅, free_id_alloc_chain := [], min_unallocated_id := 0 }

/-- The registry state after the capacity-growth branch of `acquire_id`
(the `None =>` arm in `idregistry.rs`): the watermark becomes
`m + min(usize::MAX - m, m + 1) - 1`, and ids `m .. new_m` are inserted
into `all_ids` and `free_ids` and pushed to the back of the free-list. -/
def grown (r : ExplicitIntegralIdentifierRegistry) : ExplicitIntegralIdentifierRegistry :=
  let old_min := r.min_unallocated_id
  let new_min := old_min + min (USIZE_MAX - old_min) (old_min + 1) - 1
  let newIds := List.range' old_min (new_min - old_min)
  { all_ids := newIds.foldl (fun s i => insert i s) r.all_ids
    free_ids := newIds.foldl (fun s i => insert i s) r.free_ids
    free_id_alloc_chain := r.free_id_alloc_chain ++ newIds
    min_unallocated_id := new_min }

/-- Fueled body of `acquire_id` from `idregistry.rs`.  The Rust function
recurses after growing the registry; the recursion depth is bounded by
`min_unallocated_id + 1` (one growth step when the watermark can move,
plus the degenerate countdown when it cannot), which `acquire_id` below
supplies; `acquireGo_fuel_eq` proves any sufficient fuel gives the same
result.  Mutating `&mut self` is modelled by returning the new state. -/
def acquireGo :
    Nat → ExplicitIntegralIdentifierRegistry →
    Except IdentifierRegistryFailure Nat × ExplicitIntegralIdentifierRegistry
  | 0, r => (.error .OutOfIdentifiers, r)
  | fuel + 1, r =>
    match r.free_id_alloc_chain with
    | new_id :: rest =>
        (.ok new_id,
          { r with free_ids := r.free_ids.erase new_id, free_id_alloc_chain := rest })
    | [] =>
        let old_min := r.min_unallocated_id
        let new_min := old_min + min (USIZE_MAX - old_min) (old_min + 1) - 1
        if old_min = new_min then (.error .OutOfIdentifiers, r)
        else acquireGo fuel r.grown

/-- `acquire_id` from `idregistry.rs`. -/
def acquire_id (r : ExplicitIntegralIdentifierRegistry) :
    Except IdentifierRegistryFailure Nat × ExplicitIntegralIdentifierRegistry :=
  acquireGo (r.min_unallocated_id + 2) r

/-- `release_id` from `idregistry.rs`. -/
def release_id (r : ExplicitIntegralIdentifierRegistry) (id : Nat) :
    Except IdentifierRegistryFailure Unit × ExplicitIntegralIdentifierRegistry :=
  if id ∉ r.all_ids then (.error .InvalidIdentifier, r)
  else if id ∈ r.free_ids then (.error .IdentiferAlreadyReleased, r)
  else
    (.ok (),
      { r with
        free_id_alloc_chain := id :: r.free_id_alloc_chain
        free_ids := insert id r.free_ids })

/-- `ExplicitIntegralIdentifierRegistry::new(initial_size)` from
`idregistry.rs`.  The Rust constructor asserts `initial_size > 0`
(panicking otherwise); theorems about `new` carry that hypothesis. -/
def new (initial_size : Nat) : ExplicitIntegralIdentifierRegistry :=
  { all_ids := (List.range initial_size).toFinset
    free_ids := (List.range initial_size).toFinset
    free_id_alloc_chain := List.range initial_size
    min_unallocated_id := initial_size }

/-- Recursion-depth bound for `acquireGo`: one step suffices when the
free-list is non-empty; otherwise the watermark plus one bounds the
degenerate downward countdown. -/
def acqBound (r : ExplicitIntegralIdentifierRegistry) : Nat :=
  if r.free_id_alloc_chain = [] then r.min_unallocated_id + 1 else 1

/-- The registry state reached after draining `k` of the `initial_size`
pre-minted identifiers of `new initial_size` (used to settle the growth
claims). -/
def drainedState (initial_size k : Nat) : ExplicitIntegralIdentifierRegistry :=
  { all_ids := Finset.range initial_size
    free_ids := Finset.range initial_size \ Finset.range k
    free_id_alloc_chain := List.range' k (initial_size - k)
    min_unallocated_id := initial_size }

end ExplicitIntegralIdentifierRegistry

/-- A sequence of `count` successive `acquire_id` calls, collecting each
result and threading the registry state. -/
def acquireSeq :
    Nat → ExplicitIntegralIdentifierRegistry →
    List (Except IdentifierRegistryFailure Nat) × ExplicitIntegralIdentifierRegistry
  | 0, r => ([], r)
  | count + 1, r =>
    let step := r.acquire_id
    let rest := acquireSeq count step.2
    (step.1 :: rest.1, rest.2)

/-- One registry operation: an acquisition, or a release of a given id. -/
inductive RegOp where
  | acquire
  | release (y : Nat)

/-- Apply one registry operation, keeping only the resulting state. -/
def applyOp (r : ExplicitIntegralIdentifierRegistry) : RegOp →
    ExplicitIntegralIdentifierRegistry
  | .acquire => r.acquire_id.2
  | .release y => (r.release_id y).2

/-- Apply a whole sequence of registry operations. -/
def applyOps (r : ExplicitIntegralIdentifierRegistry) (ops : List RegOp) :
    ExplicitIntegralIdentifierRegistry :=
  ops.foldl applyOp r

/-! ### Graph data model (`elements.rs`, `mod.rs`) -/

/-- Association-list model of a Rust `HashMap` keyed by `usize` identifiers.
Only lookup, insertion and removal are observable in the source; iteration
order of a `HashMap` is unspecified there, so any representation with the
same lookup semantics is faithful. -/
abbrev AList (α : Type) := List (Nat × α)

/-- `HashMap::get`. -/
def alookup {α : Type} (k : Nat) (m : AList α) : Option α :=
  (m.find? (fun p => p.1 == k)).map (fun p => p.2)

/-- `HashMap::remove` (the removed mapping is dropped). -/
def aremove {α : Type} (k : Nat) (m : AList α) : AList α :=
  m.filter (fun p => p.1 != k)

/-- `HashMap::insert`, replacing any previous mapping of the key. -/
def ainsert {α : Type} (k : Nat) (v : α) (m : AList α) : AList α :=
  (k, v) :: aremove k m

/-- `VertexDescriptor` from `elements.rs`: (unique id, payload). -/
structure VertexDescriptor (Data : Type) where
  id : Nat
  data : Data
deriving DecidableEq

/-- `EdgeDescriptor` from `elements.rs`: (unique id, weight payload). -/
structure EdgeDescriptor (WeightData : Type) where
  id : Nat
  data : WeightData
deriving DecidableEq

/-- `VertexDescriptor::map` from `elements.rs`: transform the payload in
place, keeping the id. -/
def VertexDescriptor.map {Data : Type} (v : VertexDescriptor Data) (op : Data → Data) :
    VertexDescriptor Data :=
  { id := v.id, data := op v.data }

/-- `make_vertex` from `elements.rs`. -/
def make_vertex {Data : Type} (id : Nat) (data : Data) : VertexDescriptor Data :=
  { id := id, data := data }

/-- `make_edge` from `elements.rs`. -/
def make_edge {WeightData : Type} (id : Nat) (data : WeightData) :
    EdgeDescriptor WeightData :=
  { id := id, data := data }

/-- The `Graph` structure from `mod.rs`. -/
structure Graph (Data WeightData : Type) where
  vertex_id_registry : ExplicitIntegralIdentifierRegistry
  edge_id_registry : ExplicitIntegralIdentifierRegistry
  vertices : AList (VertexDescriptor Data)
  edges : AList (EdgeDescriptor WeightData)
  forward_edges : AList (List (Nat × Nat))
  backward_edges : AList (List (Nat × Nat))
deriving DecidableEq

/-- `Graph::new` from `mod.rs`. -/
def Graph.new {Data W : Type} (vertex_registry edge_registry : ExplicitIntegralIdentifierRegistry) :
    Graph Data W :=
  { vertex_id_registry := vertex_registry
    edge_id_registry := edge_registry
    vertices := []
    edges := []
    forward_edges := []
    backward_edges := [] }

/-- The adjacency list of a vertex in an adjacency index, with the
`unwrap_or(Vec::new())` default used throughout `mod.rs` and `traversal.rs`. -/
def fwdOf (adj : AList (List (Nat × Nat))) (vertex_id : Nat) : List (Nat × Nat) :=
  (alookup vertex_id adj).getD []

/-- The forward adjacency list of a vertex. -/
def fwdList {Data W : Type} (g : Graph Data W) (vertex_id : Nat) : List (Nat × Nat) :=
  fwdOf g.forward_edges vertex_id

/-- The backward adjacency list of a vertex. -/
def bwdList {Data W : Type} (g : Graph Data W) (vertex_id : Nat) : List (Nat × Nat) :=
  fwdOf g.backward_edges vertex_id

/-- Resolve a list of (edge id, vertex id) pairs to descriptor pairs; the
`.error ()` branch models the `expect` panics of `out_neighbours_of` /
`in_neighbours_of` in `mod.rs` on an ill-formed graph. -/
def descPairs {Data W : Type} (g : Graph Data W) :
    List (Nat × Nat) → Except Unit (List (EdgeDescriptor W × VertexDescriptor Data))
  | [] => .ok []
  | p :: rest =>
    match alookup p.1 g.edges, alookup p.2 g.vertices, descPairs g rest with
    | some e, some v, .ok l => .ok ((e, v) :: l)
    | _, _, _ => .error ()

/-- `Graph::out_neighbours_of` from `mod.rs`. -/
def out_neighbours_of {Data W : Type} (g : Graph Data W) (vertex_id : Nat) :
    Except Unit (List (EdgeDescriptor W × VertexDescriptor Data)) :=
  descPairs g (fwdList g vertex_id)

/-- `Graph::in_neighbours_of` from `mod.rs`. -/
def in_neighbours_of {Data W : Type} (g : Graph Data W) (vertex_id : Nat) :
    Except Unit (List (EdgeDescriptor W × VertexDescriptor Data)) :=
  descPairs g (bwdList g vertex_id)

/-- `Graph::reverse_graph` from `mod.rs`: swap the two adjacency indices,
leaving everything else in place. -/
def Graph.reverse_graph {Data W : Type} (g : Graph Data W) : Graph Data W :=
  { vertex_id_registry := g.vertex_id_registry
    edge_id_registry := g.edge_id_registry
    vertices := g.vertices
    edges := g.edges
    forward_edges := g.backward_edges
    backward_edges := g.forward_edges }

/-- Well-formedness of a graph (the §3 invariants assumed by the read
operations): descriptor ids agree with their map keys, and every
(edge id, vertex id) pair of either adjacency index resolves in the
`edges` / `vertices` maps. -/
def WellFormedB {Data W : Type} (g : Graph Data W) : Bool :=
  g.vertices.all (fun p => p.2.id == p.1) &&
  g.edges.all (fun p => p.2.id == p.1) &&
  g.forward_edges.all (fun p => p.2.all (fun q =>
    (alookup q.1 g.edges).isSome && (alookup q.2 g.vertices).isSome)) &&
  g.backward_edges.all (fun p => p.2.all (fun q =>
    (alookup q.1 g.edges).isSome && (alookup q.2 g.vertices).isSome))

/-! ### Mutators (`mutators.rs`) -/

/-- `GraphVertexAdditionMutator::mutate` composed with the `add_vertex`
ownership-swap wrapper from `mutators.rs`: acquire a fresh vertex id,
insert a descriptor with the supplied payload, and return the id with the
new graph.  `.error ()` models the `expect` panic when the vertex registry
is exhausted. -/
def add_vertex {Data W : Type} (g : Graph Data W) (data : Data) :
    Except Unit (Nat × Graph Data W) :=
  match g.vertex_id_registry.acquire_id with
  | (.ok new_id, reg) =>
      .ok (new_id,
        { g with
            vertex_id_registry := reg
            vertices := ainsert new_id (make_vertex new_id data) g.vertices })
  | (.error _, _) => .error ()

/-- `GraphVertexReplacementMutator::mutate` composed with the `map_vertex`
wrapper from `mutators.rs`: remove the descriptor of `id`, transform its
payload, reinsert it under the same id.  `.error ()` models the panic when
`id` is absent from the graph. -/
def map_vertex {Data W : Type} (g : Graph Data W) (id : Nat) (op : Data → Data) :
    Except Unit (Graph Data W) :=
  match alookup id g.vertices with
  | none => .error ()
  | some vdesc =>
      .ok { g with vertices := ainsert id (vdesc.map op) (aremove id g.vertices) }

/-- `entry(v).or_insert(Vec::new()).push(pr)` on an adjacency index. -/
def adjAppend (v : Nat) (pr : Nat × Nat) (m : AList (List (Nat × Nat))) :
    AList (List (Nat × Nat)) :=
  ainsert v ((alookup v m).getD [] ++ [pr]) m

/-- `GraphEdgeAdditionMutator::mutate` composed with the `add_edge` wrapper
from `mutators.rs`: acquire a fresh edge id, insert the edge descriptor,
and append `(edge id, target)` to the source's forward adjacency and
`(edge id, source)` to the target's backward adjacency.  Endpoint existence
is not validated, exactly as in the source. -/
def add_edge {Data W : Type} (g : Graph Data W) (vertex_from vertex_to : Nat) (data : W) :
    Except Unit (Nat × Graph Data W) :=
  match g.edge_id_registry.acquire_id with
  | (.ok new_id, reg) =>
      .ok (new_id,
        { g with
            edge_id_registry := reg
            edges := ainsert new_id (make_edge new_id data) g.edges
            forward_edges := adjAppend vertex_from (new_id, vertex_to) g.forward_edges
            backward_edges := adjAppend vertex_to (new_id, vertex_from) g.backward_edges })
  | (.error _, _) => .error ()

/-- Graphs reachable from `Graph::new` by successful `add_vertex` /
`add_edge` calls. -/
inductive Built {Data W : Type} : Graph Data W → Prop where
  | new : ∀ vr er, Built (Graph.new vr er)
  | add_vertex : ∀ g d i g', Built g → add_vertex g d = .ok (i, g') → Built g'
  | add_edge : ∀ g u v w i g', Built g → add_edge g u v w = .ok (i, g') → Built g'

/-- Unwrap a successful mutator application (used to build concrete example
graphs; the fallback is never exercised). -/
def okGraph {Data W : Type} (d : Graph Data W) : Except Unit (Nat × Graph Data W) → Graph Data W
  | .ok (_, g) => g
  | .error _ => d

/-! ### Breadth-first traversal (`traversal.rs`) -/

/-- One entry of the BFS transition queue: the optional (from-vertex id,
edge id) pair of the incoming edge, and the target vertex id. -/
abbrev Transition := Option (Nat × Nat) × Nat

/-- All target vertex ids mentioned anywhere in an adjacency index (a finite
superset of everything BFS can newly cover; used to size the fuel). -/
def adjTargets (adj : AList (List (Nat × Nat))) : Finset Nat :=
  (adj.foldr (fun p acc => p.2.map (fun q => q.2) ++ acc) []).toFinset

/-- The neighbour for-loop of `breadth_first_traversal` in `traversal.rs`:
walk the adjacency list in insertion order, and for each uncovered target
mark it covered and push the transition to the back of the queue. -/
def scanNew (vfrom : Nat) :
    List (Nat × Nat) → Finset Nat → List Transition → Finset Nat × List Transition
  | [], covered, queue => (covered, queue)
  | (edge_id, to_vertex_id) :: rest, covered, queue =>
    if to_vertex_id ∈ covered then scanNew vfrom rest covered queue
    else
      scanNew vfrom rest (insert to_vertex_id covered)
        (queue ++ [(some (vfrom, edge_id), to_vertex_id)])

/-- Fueled pure companion of the BFS while-loop: the sequence of transitions
in dequeue order for a full (never-terminating-early) run.  The fuel only
needs to exceed `bfsFuel` (each iteration pops one transition, and every
push covers a previously uncovered member of `adjTargets`). -/
def bfsGo (adj : AList (List (Nat × Nat))) :
    Nat → List Transition → Finset Nat → List Transition
  | 0, _, _ => []
  | _ + 1, [], _ => []
  | fuel + 1, (maybe_edge, vertex_id) :: rest, covered =>
    (maybe_edge, vertex_id) ::
      bfsGo adj fuel (scanNew vertex_id (fwdOf adj vertex_id) covered rest).2
        (scanNew vertex_id (fwdOf adj vertex_id) covered rest).1

/-- Sufficient fuel for `bfsGo` (proven sufficient in `bfsGo_fuel_eq`). -/
def bfsFuel (adj : AList (List (Nat × Nat))) (queue : List Transition)
    (covered : Finset Nat) : Nat :=
  (adjTargets adj \ covered).card + queue.length + 1

/-- The BFS transition trace from an arbitrary queue/covered-set state. -/
def bfsAux (adj : AList (List (Nat × Nat))) (queue : List Transition)
    (covered : Finset Nat) : List Transition :=
  bfsGo adj (bfsFuel adj queue covered) queue covered

/-- The `GraphVisitor` capability set from `mod.rs`, as a record of state
transformers over a visitor-state type `σ`. -/
structure GraphVisitor (σ Data W : Type) where
  reset : σ → σ
  visit_vertex : σ → VertexDescriptor Data → σ
  visit_edge : σ → Nat → EdgeDescriptor W → Nat → σ
  should_terminate : σ → Bool

/-- Fueled body of `breadth_first_traversal` from `traversal.rs`, with the
visitor threaded through; `.error ()` models the `unwrap` panics on an
ill-formed graph.  The fuel-exhaustion branch returns the current state and
is unreachable for the fuel supplied by `breadth_first_traversal`. -/
def bftGo {σ Data W : Type} (g : Graph Data W) (V : GraphVisitor σ Data W) :
    Nat → σ → List Transition → Finset Nat → Except Unit σ
  | 0, st, _, _ => .ok st
  | fuel + 1, st, queue, covered =>
    if V.should_terminate st then .ok st
    else
      match queue with
      | [] => .ok st
      | (maybe_edge, vertex_id) :: rest =>
        match alookup vertex_id g.vertices with
        | none => .error ()
        | some vertex =>
          match
            (match maybe_edge with
              | none => some st
              | some fe =>
                match alookup fe.2 g.edges with
                | none => none
                | some edge => some (V.visit_edge st fe.1 edge vertex_id)) with
          | none => .error ()
          | some st1 =>
            bftGo g V fuel (V.visit_vertex st1 vertex)
              (scanNew vertex_id (fwdList g vertex_id) covered rest).2
              (scanNew vertex_id (fwdList g vertex_id) covered rest).1

/-- `breadth_first_traversal` from `traversal.rs`: assert the source is in
the graph (`.error ()` models the assert panic), reset the visitor, seed the
queue with `(no incoming edge, source)`, mark the source covered, and loop. -/
def breadth_first_traversal {σ Data W : Type} (g : Graph Data W) (source : Nat)
    (visitor : GraphVisitor σ Data W) (st : σ) : Except Unit σ :=
  if (alookup source g.vertices).isSome then
    bftGo g visitor (bfsFuel g.forward_edges [(none, source)] {source})
      (visitor.reset st) [(none, source)] {source}
  else .error ()

/-- Replay a visitor over a precomputed transition trace, polling
`should_terminate` before each transition exactly as the loop does. -/
def runTrace {σ Data W : Type} (g : Graph Data W) (V : GraphVisitor σ Data W) :
    σ → List Transition → Except Unit σ
  | st, [] => .ok st
  | st, (maybe_edge, vertex_id) :: rest =>
    if V.should_terminate st then .ok st
    else
      match alookup vertex_id g.vertices with
      | none => .error ()
      | some vertex =>
        match
          (match maybe_edge with
            | none => some st
            | some fe =>
              match alookup fe.2 g.edges with
              | none => none
              | some edge => some (V.visit_edge st fe.1 edge vertex_id)) with
        | none => .error ()
        | some st1 => runTrace g V (V.visit_vertex st1 vertex) rest

/-- The transition trace of a full BFS from `source`. -/
def bfsTrace {Data W : Type} (g : Graph Data W) (source : Nat) : List Transition :=
  bfsAux g.forward_edges [(none, source)] {source}

/-- The vertex ids of a full BFS from `source`, in visit order. -/
def bfsVisits {Data W : Type} (g : Graph Data W) (source : Nat) : List Nat :=
  (bfsTrace g source).map (fun t => t.2)

/-- `VertexCollector` from `mod.rs`: collects (by push-back) the visited
vertex descriptors whose payload satisfies the selector; never terminates
early. -/
def VertexCollector (Data W : Type) (selector : Data → Bool) :
    GraphVisitor (List (VertexDescriptor Data)) Data W :=
  { reset := fun _ => []
    visit_vertex := fun l vertex => if selector vertex.data then l ++ [vertex] else l
    visit_edge := fun l _ _ _ => l
    should_terminate := fun _ => false }

/-! ### Waves and layers -/

/-- Expand a whole queue one wave: fold the neighbour scan over every
transition of the queue, accumulating the next wave of transitions. -/
def expandQ (adj : AList (List (Nat × Nat))) (c : Finset Nat)
    (q : List Transition) : Finset Nat × List Transition :=
  q.foldl (fun acc t => scanNew t.2 (fwdOf adj t.2) acc.1 acc.2) (c, [])

/-- Modelled from the spec: one step of "standard BFS layering" — scan the
adjacency lists of one layer's vertices in visit order and collect the
not-yet-seen targets, in adjacency-list insertion order, as the next layer. -/
def layerStep (adj : AList (List (Nat × Nat))) (c : Finset Nat)
    (layer : List Nat) : Finset Nat × List Nat :=
  layer.foldl
    (fun acc v =>
      (fwdOf adj v).foldl
        (fun acc p => if p.2 ∈ acc.1 then acc else (insert p.2 acc.1, acc.2 ++ [p.2]))
        acc)
    (c, [])

/-- Fueled layering recursion (fuel is sufficient from `slFuel` on). -/
def slGo (adj : AList (List (Nat × Nat))) :
    Nat → Finset Nat → List Nat → List (List Nat)
  | 0, _, _ => []
  | _ + 1, _, [] => []
  | fuel + 1, c, layer =>
    layer :: slGo adj fuel (layerStep adj c layer).1 (layerStep adj c layer).2

/-- Sufficient fuel for `slGo`. -/
def slFuel (adj : AList (List (Nat × Nat))) (c : Finset Nat) : Nat :=
  (adjTargets adj \ c).card + 2

/-- Modelled from the spec: the layers of "standard BFS layering" from a
seen-set and a current layer. -/
def specLayersAux (adj : AList (List (Nat × Nat))) (c : Finset Nat)
    (layer : List Nat) : List (List Nat) :=
  slGo adj (slFuel adj c) c layer

/-- Modelled from the spec: the BFS layering of a graph from a source. -/
def bfsLayers {Data W : Type} (g : Graph Data W) (source : Nat) : List (List Nat) :=
  specLayersAux g.forward_edges {source} [source]

/-! ### Hop distance -/

/-- `ReachN adj s n v`: there is a walk of exactly `n` forward edges from
`s` to `v`. -/
def ReachN (adj : AList (List (Nat × Nat))) (s : Nat) : Nat → Nat → Prop
  | 0, v => v = s
  | n + 1, v => ∃ u, ReachN adj s n u ∧ ∃ e, (e, v) ∈ fwdOf adj u

/-- `v` is reachable from `s`. -/
def Reachable (adj : AList (List (Nat × Nat))) (s v : Nat) : Prop :=
  ∃ n, ReachN adj s n v

/-- `d` is the minimum hop count (BFS distance) from `s` to `v`. -/
def IsDist (adj : AList (List (Nat × Nat))) (s v d : Nat) : Prop :=
  ReachN adj s d v ∧ ∀ m, ReachN adj s m v → d ≤ m

/-! ### Path finding (`pathfinding.rs`) -/

/-- `Walk` from `mod.rs`: the vertex sequence of one path and the edges
transited between consecutive vertices. -/
structure Walk (Data W : Type) where
  vertices : List (VertexDescriptor Data)
  edges : List (EdgeDescriptor W)
deriving DecidableEq

/-- `WalkBuilder` state from `pathfinding.rs`.  `path` stores, once the
target has been visited, the outcome of `build_path`; its `.error` case
records that `build_path` would have panicked (never reached from
`find_path` on a well-formed graph). -/
structure WalkBuilder (Data W : Type) where
  initial_vertex_id : Nat
  final_vertex_id : Nat
  current_edge : Option (Nat × EdgeDescriptor W × Nat)
  back_edge_lookup : AList (Nat × EdgeDescriptor W × Nat)
  vertex_lookup : AList (VertexDescriptor Data)
  path : Option (Except Unit (Walk Data W))

/-- The back-edge chase loop of `WalkBuilder::build_path` from
`pathfinding.rs`, with structural fuel; `build_path` supplies fuel that is
proven sufficient in every state `find_path` reaches, and both the
fuel-exhaustion branch and a missing lookup model the `expect` panics. -/
def buildPathLoop {Data W : Type} (wb : WalkBuilder Data W) :
    Nat → VertexDescriptor Data → List (VertexDescriptor Data) →
    List (EdgeDescriptor W) → Except Unit (Walk Data W)
  | 0, _, _, _ => .error ()
  | fuel + 1, current_vertex, vertex_list, edge_list =>
    if current_vertex.id = wb.initial_vertex_id then
      .ok { vertices := current_vertex :: vertex_list, edges := edge_list }
    else
      match alookup current_vertex.id wb.back_edge_lookup with
      | none => .error ()
      | some back_edge =>
        match alookup back_edge.1 wb.vertex_lookup with
        | none => .error ()
        | some next_vertex =>
          buildPathLoop wb fuel next_vertex (current_vertex :: vertex_list)
            (back_edge.2.1 :: edge_list)

/-- `WalkBuilder::build_path` from `pathfinding.rs`. -/
def build_path {Data W : Type} (wb : WalkBuilder Data W) : Except Unit (Walk Data W) :=
  match alookup wb.final_vertex_id wb.vertex_lookup with
  | none => .error ()
  | some current_vertex =>
    buildPathLoop wb (wb.vertex_lookup.length + 1) current_vertex [] []

/-- The `GraphVisitor` implementation of `WalkBuilder` from
`pathfinding.rs`: record each visited vertex, convert the pending
`current_edge` into the back-edge of the vertex it led into, and build the
path (then signal termination) once the final vertex is visited. -/
def walkBuilderVisitor (Data W : Type) : GraphVisitor (WalkBuilder Data W) Data W :=
  { reset := fun wb =>
      { wb with
          current_edge := none
          back_edge_lookup := []
          vertex_lookup := []
          path := none }
    visit_vertex := fun wb vertex =>
      let wb1 := { wb with vertex_lookup := ainsert vertex.id vertex wb.vertex_lookup }
      let wb2 :=
        match wb1.current_edge with
        | none => { wb1 with current_edge := none }
        | some edge =>
          { wb1 with
              current_edge := none
              back_edge_lookup := ainsert vertex.id edge wb1.back_edge_lookup }
      if vertex.id = wb2.final_vertex_id then { wb2 with path := some (build_path wb2) }
      else wb2
    visit_edge := fun wb vertex_from_id edge vertex_to_id =>
      { wb with current_edge := some (vertex_from_id, edge, vertex_to_id) }
    should_terminate := fun wb => wb.path.isSome }

/-- `WalkBuilder::new` from `pathfinding.rs`. -/
def WalkBuilder.new (Data W : Type) (initial_vertex_id final_vertex_id : Nat) :
    WalkBuilder Data W :=
  { initial_vertex_id := initial_vertex_id
    final_vertex_id := final_vertex_id
    current_edge := none
    back_edge_lookup := []
    vertex_lookup := []
    path := none }

/-- `find_path` from `pathfinding.rs`: assert both endpoints are in the
graph (`.error ()` models the assert panics), run the BFS with a fresh
`WalkBuilder`, and take the built path. -/
def find_path {Data W : Type} (g : Graph Data W) (vertex_from_id vertex_to_id : Nat) :
    Except Unit (Option (Walk Data W)) :=
  if (alookup vertex_from_id g.vertices).isSome then
    if (alookup vertex_to_id g.vertices).isSome then
      match breadth_first_traversal g vertex_from_id (walkBuilderVisitor Data W)
          (WalkBuilder.new Data W vertex_from_id vertex_to_id) with
      | .error e => .error e
      | .ok wb =>
        match wb.path with
        | none => .ok none
        | some (.ok w) => .ok (some w)
        | some (.error e) => .error e
    else .error ()
  else .error ()

/-- Invariant of the `WalkBuilder` state after the BFS has visited the
vertices of `visited` (in order, target not yet seen): the lookups mirror
the graph on the visited set, and every visited vertex other than the
source has a recorded back-edge to a visited parent one hop closer to the
source. -/
def WBInv {Data W : Type} (g : Graph Data W) (a b : Nat) (visited : List Nat)
    (wb : WalkBuilder Data W) : Prop :=
  wb.initial_vertex_id = a ∧ wb.final_vertex_id = b ∧
  wb.current_edge = none ∧ wb.path = none ∧
  (∀ x ∈ visited, alookup x wb.vertex_lookup = alookup x g.vertices ∧
    (alookup x g.vertices).isSome) ∧
  (∀ x vd, alookup x wb.vertex_lookup = some vd → x ∈ visited) ∧
  wb.vertex_lookup.length = visited.length ∧
  (∀ x ∈ visited, ¬ x = a →
    ∃ u ed du, alookup x wb.back_edge_lookup = some (u, ed, x) ∧ u ∈ visited ∧
      IsDist g.forward_edges a u du ∧ IsDist g.forward_edges a x (du + 1))

/-- The example graph of the specification: vertices 1–5 with the ten edges
1→2, 1→3, 1→4, 3→2, 3→5, 3→4, 4→5, 4→1, 2→5, 5→2 inserted in that order
(edge ids 0–9); `backward_edges` is the transpose. -/
def exGraph : Graph Unit Unit :=
  { vertex_id_registry := ExplicitIntegralIdentifierRegistry.null_registry
    edge_id_registry := ExplicitIntegralIdentifierRegistry.null_registry
    vertices :=
      [(1, ⟨1, ()⟩), (2, ⟨2, ()⟩), (3, ⟨3, ()⟩), (4, ⟨4, ()⟩), (5, ⟨5, ()⟩)]
    edges :=
      [(0, ⟨0, ()⟩), (1, ⟨1, ()⟩), (2, ⟨2, ()⟩), (3, ⟨3, ()⟩), (4, ⟨4, ()⟩),
        (5, ⟨5, ()⟩), (6, ⟨6, ()⟩), (7, ⟨7, ()⟩), (8, ⟨8, ()⟩), (9, ⟨9, ()⟩)]
    forward_edges :=
      [(1, [(0, 2), (1, 3), (2, 4)]), (3, [(3, 2), (4, 5), (5, 4)]),
        (4, [(6, 5), (7, 1)]), (2, [(8, 5)]), (5, [(9, 2)])]
    backward_edges :=
      [(2, [(0, 1), (3, 3), (9, 5)]), (3, [(1, 1)]), (4, [(2, 1), (5, 3)]),
        (5, [(4, 3), (6, 4), (8, 2)]), (1, [(7, 4)])] }

/-- Empty two-vertex example graph under construction (for witnesses). -/
def pairGraph0 : Graph Unit Unit :=
  Graph.new (ExplicitIntegralIdentifierRegistry.new 2) (ExplicitIntegralIdentifierRegistry.new 1)

/-- `pairGraph0` after one `add_vertex` (vertex id 0). -/
def pairGraph1 : Graph Unit Unit := okGraph pairGraph0 (add_vertex pairGraph0 ())

/-- `pairGraph1` after another `add_vertex` (vertex id 1). -/
def pairGraph2 : Graph Unit Unit := okGraph pairGraph1 (add_vertex pairGraph1 ())

/-- `pairGraph2` after `add_edge 0 1` (edge id 0). -/
def pairGraph3 : Graph Unit Unit := okGraph pairGraph2 (add_edge pairGraph2 0 1 ())

/-! ### Registry lemmas -/

namespace ExplicitIntegralIdentifierRegistry

theorem usize_max_eq : USIZE_MAX = 18446744073709551615 := by norm_num [USIZE_MAX]

theorem acqBound_pos (r : ExplicitIntegralIdentifierRegistry) : 1 ≤ acqBound r := by
  unfold acqBound; split <;> omega

theorem grown_min (r : ExplicitIntegralIdentifierRegistry) :
    r.grown.min_unallocated_id =
      r.min_unallocated_id +
        min (USIZE_MAX - r.min_unallocated_id) (r.min_unallocated_id + 1) - 1 := rfl

theorem grown_chain (r : ExplicitIntegralIdentifierRegistry) :
    r.grown.free_id_alloc_chain =
      r.free_id_alloc_chain ++
        List.range' r.min_unallocated_id
          (r.grown.min_unallocated_id - r.min_unallocated_id) := rfl

theorem acqBound_grown (r : ExplicitIntegralIdentifierRegistry)
    (hc : r.free_id_alloc_chain = [])
    (hne : ¬ r.min_unallocated_id = r.grown.min_unallocated_id) :
    acqBound r.grown ≤ r.min_unallocated_id := by
  have hmin := grown_min r
  rcases Nat.lt_or_ge r.min_unallocated_id r.grown.min_unallocated_id with hlt | hge
  · have hchain : ¬ r.grown.free_id_alloc_chain = [] := by
      rw [grown_chain r, hc, List.nil_append, List.range'_eq_nil]
      omega
    unfold acqBound
    rw [if_neg hchain]
    omega
  · have hchain : r.grown.free_id_alloc_chain = [] := by
      rw [grown_chain r, hc, List.nil_append, List.range'_eq_nil]
      omega
    unfold acqBound
    rw [if_pos hchain]
    omega

theorem acquireGo_fuel_eq :
    ∀ (f₁ : Nat) (r : ExplicitIntegralIdentifierRegistry) (f₂ : Nat),
      acqBound r ≤ f₁ → acqBound r ≤ f₂ → acquireGo f₁ r = acquireGo f₂ r := by
  intro f₁
  induction f₁ with
  | zero =>
    intro r f₂ h₁ _
    exact absurd h₁ (by have := acqBound_pos r; omega)
  | succ f ih =>
    intro r f₂ h₁ h₂
    rcases f₂ with _ | f₂'
    · exact absurd h₂ (by have := acqBound_pos r; omega)
    rcases hc : r.free_id_alloc_chain with _ | ⟨a, rest⟩
    · have hbound : r.min_unallocated_id + 1 ≤ f + 1 := by
        have : acqBound r = r.min_unallocated_id + 1 := by unfold acqBound; rw [if_pos hc]
        omega
      simp only [acquireGo, hc]
      by_cases hne :
          r.min_unallocated_id =
            r.min_unallocated_id +
              min (USIZE_MAX - r.min_unallocated_id) (r.min_unallocated_id + 1) - 1
      · rw [if_pos hne, if_pos hne]
      · have hne2 : ¬ r.min_unallocated_id = r.grown.min_unallocated_id := by
          rw [grown_min]; exact hne
        rw [if_neg hne, if_neg hne]
        have hb := acqBound_grown r hc hne2
        exact ih r.grown f₂' (by omega) (by
          have : acqBound r = r.min_unallocated_id + 1 := by unfold acqBound; rw [if_pos hc]
          omega)
    · simp only [acquireGo, hc]

theorem acquire_id_eq_go (r : ExplicitIntegralIdentifierRegistry) (f : Nat)
    (h : acqBound r ≤ f) : r.acquire_id = acquireGo f r := by
  unfold acquire_id
  have hb : acqBound r ≤ r.min_unallocated_id + 2 := by unfold acqBound; split <;> omega
  exact acquireGo_fuel_eq _ r f hb h

theorem acquire_id_cons (r : ExplicitIntegralIdentifierRegistry) (a : Nat)
    (rest : List Nat) (hc : r.free_id_alloc_chain = a :: rest) :
    r.acquire_id =
      (.ok a, { r with free_ids := r.free_ids.erase a, free_id_alloc_chain := rest }) := by
  rw [acquire_id_eq_go r 1 (by unfold acqBound; rw [if_neg (by simp [hc])])]
  simp only [acquireGo, hc]

theorem acquire_id_stuck (r : ExplicitIntegralIdentifierRegistry)
    (hc : r.free_id_alloc_chain = [])
    (hstuck :
      r.min_unallocated_id +
        min (USIZE_MAX - r.min_unallocated_id) (r.min_unallocated_id + 1) - 1 =
        r.min_unallocated_id) :
    r.acquire_id = (.error .OutOfIdentifiers, r) := by
  rw [acquire_id_eq_go r (r.min_unallocated_id + 1) (by unfold acqBound; rw [if_pos hc])]
  simp only [acquireGo, hc]
  rw [if_pos hstuck.symm]

theorem acquire_id_grow (r : ExplicitIntegralIdentifierRegistry)
    (hc : r.free_id_alloc_chain = [])
    (hne : ¬ r.min_unallocated_id = r.grown.min_unallocated_id) :
    r.acquire_id = r.grown.acquire_id := by
  rw [acquire_id_eq_go r (r.min_unallocated_id + 1) (by unfold acqBound; rw [if_pos hc])]
  simp only [acquireGo, hc]
  rw [if_neg (by rw [grown_min] at hne; exact hne)]
  have hb := acqBound_grown r hc hne
  have hm1 : 1 ≤ r.min_unallocated_id := by
    by_contra hm0
    have h0 : r.min_unallocated_id = 0 := by omega
    apply hne
    rw [grown_min, h0, usize_max_eq]
    omega
  rw [acquire_id_eq_go r.grown r.min_unallocated_id (by omega)]

theorem acquire_error_of_high :
    ∀ (k : Nat) (r : ExplicitIntegralIdentifierRegistry),
      r.free_id_alloc_chain = [] → USIZE_MAX - 1 ≤ r.min_unallocated_id →
      r.min_unallocated_id ≤ USIZE_MAX - 1 + k →
      r.acquire_id.1 = .error .OutOfIdentifiers := by
  intro k
  induction k with
  | zero =>
    intro r hc hge hle
    rw [acquire_id_stuck r hc (by rw [usize_max_eq] at *; omega)]
  | succ k ih =>
    intro r hc hge hle
    by_cases hm : r.min_unallocated_id = USIZE_MAX - 1
    · rw [acquire_id_stuck r hc (by rw [usize_max_eq] at *; omega)]
    · have hMAX := usize_max_eq
      have hgt : USIZE_MAX ≤ r.min_unallocated_id := by omega
      have hgmin : r.grown.min_unallocated_id = r.min_unallocated_id - 1 := by
        rw [grown_min]; omega
      have hne : ¬ r.min_unallocated_id = r.grown.min_unallocated_id := by omega
      rw [acquire_id_grow r hc hne]
      apply ih r.grown
      · rw [grown_chain r, hc, List.nil_append, List.range'_eq_nil]; omega
      · omega
      · omega

theorem acquire_grow_success (r : ExplicitIntegralIdentifierRegistry)
    (hc : r.free_id_alloc_chain = [])
    (h1 : 1 ≤ r.min_unallocated_id) (h2 : r.min_unallocated_id ≤ USIZE_MAX - 2) :
    r.acquire_id =
      (.ok r.min_unallocated_id,
        { r.grown with
            free_ids := r.grown.free_ids.erase r.min_unallocated_id
            free_id_alloc_chain :=
              List.range' (r.min_unallocated_id + 1)
                (r.grown.min_unallocated_id - r.min_unallocated_id - 1) }) := by
  have hMAX := usize_max_eq
  have hmin := grown_min r
  have hlt : r.min_unallocated_id < r.grown.min_unallocated_id := by omega
  rw [acquire_id_grow r hc (by omega)]
  have hchain :
      r.grown.free_id_alloc_chain =
        r.min_unallocated_id ::
          List.range' (r.min_unallocated_id + 1)
            (r.grown.min_unallocated_id - r.min_unallocated_id - 1) := by
    rw [grown_chain, hc, List.nil_append]
    have hcount :
        r.grown.min_unallocated_id - r.min_unallocated_id =
          (r.grown.min_unallocated_id - r.min_unallocated_id - 1) + 1 := by omega
    nth_rewrite 1 [hcount]
    rw [List.range'_succ _ _ 1]
  rw [acquire_id_cons _ _ _ hchain]

theorem new_eq_drained (N : Nat) : new N = drainedState N 0 := by
  unfold new drainedState
  have h1 : (List.range N).toFinset = Finset.range N := by ext x; simp
  have h2 : Finset.range N \ Finset.range 0 = Finset.range N := by
    rw [Finset.range_zero, Finset.sdiff_empty]
  rw [h1, h2, List.range_eq_range', Nat.sub_zero]

theorem drained_pop (N j : Nat) (hj : j < N) :
    (drainedState N j).acquire_id = (.ok j, drainedState N (j + 1)) := by
  have hchain :
      (drainedState N j).free_id_alloc_chain = j :: List.range' (j + 1) (N - (j + 1)) := by
    show List.range' j (N - j) = _
    have hcount : N - j = (N - (j + 1)) + 1 := by omega
    rw [hcount, List.range'_succ _ _ 1]
  rw [acquire_id_cons _ _ _ hchain]
  have hfree :
      (Finset.range N \ Finset.range j).erase j = Finset.range N \ Finset.range (j + 1) := by
    ext x; simp [Finset.mem_erase, Finset.mem_sdiff, Finset.mem_range]; omega
  show (_, _) = (_, _)
  unfold drainedState
  rw [Prod.mk.injEq]
  refine ⟨rfl, ?_⟩
  simp only [drainedState] at hfree ⊢
  congr 1

theorem acquireSeq_drained (N : Nat) :
    ∀ (k j : Nat), j + k ≤ N →
      acquireSeq k (drainedState N j) =
        ((List.range' j k).map .ok, drainedState N (j + k)) := by
  intro k
  induction k with
  | zero => intro j h; simp [acquireSeq]
  | succ k ih =>
    intro j h
    have hj : j < N := by omega
    simp only [acquireSeq, drained_pop N j hj]
    rw [ih (j + 1) (by omega)]
    have harith : j + 1 + k = j + (k + 1) := by omega
    rw [harith, List.range'_succ _ _ 1, List.map_cons]

theorem acquireSeq_new (N : Nat) :
    acquireSeq N (new N) = ((List.range N).map .ok, drainedState N N) := by
  rw [new_eq_drained, acquireSeq_drained N N 0 (by omega), List.range_eq_range']
  simp

theorem acquireSeq_add (a b : Nat) :
    ∀ (r : ExplicitIntegralIdentifierRegistry),
      acquireSeq (a + b) r =
        ((acquireSeq a r).1 ++ (acquireSeq b (acquireSeq a r).2).1,
          (acquireSeq b (acquireSeq a r).2).2) := by
  induction a with
  | zero => intro r; simp [acquireSeq]
  | succ a ih =>
    intro r
    have harith : a + 1 + b = (a + b) + 1 := by omega
    rw [harith]
    simp only [acquireSeq]
    rw [ih]
    simp

theorem applyOp_null (op : RegOp) : applyOp null_registry op = null_registry := by
  cases op with
  | acquire => rfl
  | release y =>
    show (null_registry.release_id y).2 = null_registry
    simp [release_id, null_registry]

/-! ### Registry claim theorems -/

/-- C3, counterexample: the null registry has watermark 0, strictly below the
representable maximum, yet its free-list is empty and `acquire_id` fails with
`OutOfIdentifiers` because doubling cannot move the watermark above 0. -/
theorem claim_C3_counterexample :
    null_registry.min_unallocated_id < USIZE_MAX ∧
      null_registry.acquire_id.1 = .error .OutOfIdentifiers := by
  refine ⟨?_, rfl⟩
  rw [usize_max_eq]
  show 0 < _
  omega

/-- C3, amended: `acquire_id` fails (with `OutOfIdentifiers`) exactly when the
free-list is empty and capacity doubling cannot increase the watermark, which
happens precisely when the watermark is 0 or at least `USIZE_MAX - 1`; for
every other registry state `acquire_id` succeeds. -/
theorem claim_C3_acquire_failure_characterization
    (r : ExplicitIntegralIdentifierRegistry) :
    r.acquire_id.1 = .error .OutOfIdentifiers ↔
      (r.free_id_alloc_chain = [] ∧
        (r.min_unallocated_id = 0 ∨ USIZE_MAX - 1 ≤ r.min_unallocated_id)) := by
  have hMAX := usize_max_eq
  constructor
  · intro herr
    rcases hc : r.free_id_alloc_chain with _ | ⟨a, rest⟩
    · refine ⟨rfl, ?_⟩
      by_contra hnot
      push_neg at hnot
      have h1 : 1 ≤ r.min_unallocated_id := by omega
      have h2 : r.min_unallocated_id ≤ USIZE_MAX - 2 := by omega
      rw [acquire_grow_success r hc h1 h2] at herr
      exact Except.noConfusion herr
    · rw [acquire_id_cons r a rest hc] at herr
      exact Except.noConfusion herr
  · rintro ⟨hc, hm | hm⟩
    · rw [acquire_id_stuck r hc (by rw [hm]; omega)]
    · exact acquire_error_of_high (r.min_unallocated_id - (USIZE_MAX - 1)) r hc hm
        (by omega)

/-- C3, amended-claim witness at a concrete input: a registry holding watermark
1 with an empty free-list is not in the failure region, and indeed acquiring
from it succeeds. -/
theorem claim_C3_acquire_failure_characterization_witness :
    ¬ ((drainedState 1 1).acquire_id.1 = .error .OutOfIdentifiers) :=
  fun h =>
    have h2 := (claim_C3_acquire_failure_characterization (drainedState 1 1)).mp h
    absurd h2 (by rw [usize_max_eq]; decide)

/-- C5: `release_id` returns `InvalidIdentifier` for an id never minted,
`IdentiferAlreadyReleased` for an id currently free, and otherwise succeeds by
marking the id free and pushing it to the front of the free-list; in both
failure cases the registry state is returned unchanged. -/
theorem claim_C5_release_id (r : ExplicitIntegralIdentifierRegistry) (id : Nat) :
    (id ∉ r.all_ids → r.release_id id = (.error .InvalidIdentifier, r)) ∧
    (id ∈ r.all_ids → id ∈ r.free_ids →
      r.release_id id = (.error .IdentiferAlreadyReleased, r)) ∧
    (id ∈ r.all_ids → id ∉ r.free_ids →
      r.release_id id =
        (.ok (),
          { r with
              free_id_alloc_chain := id :: r.free_id_alloc_chain
              free_ids := insert id r.free_ids })) := by
  refine ⟨fun h => ?_, fun h1 h2 => ?_, fun h1 h2 => ?_⟩ <;>
    simp [release_id, *]

/-- C5 witness: the three branches of `claim_C5_release_id` at concrete
inputs (registry of size 2 with id 0 in use). -/
theorem claim_C5_release_id_witness :
    ((ExplicitIntegralIdentifierRegistry.new 2).release_id 5 =
      (.error .InvalidIdentifier, ExplicitIntegralIdentifierRegistry.new 2)) ∧
    ((ExplicitIntegralIdentifierRegistry.new 2).release_id 1 =
      (.error .IdentiferAlreadyReleased, ExplicitIntegralIdentifierRegistry.new 2)) ∧
    ((drainedState 2 1).release_id 0 =
      (.ok (),
        { drainedState 2 1 with
            free_id_alloc_chain := 0 :: (drainedState 2 1).free_id_alloc_chain
            free_ids := insert 0 (drainedState 2 1).free_ids })) :=
  ⟨(claim_C5_release_id (ExplicitIntegralIdentifierRegistry.new 2) 5).1 (by decide),
    (claim_C5_release_id (ExplicitIntegralIdentifierRegistry.new 2) 1).2.1
      (by decide) (by decide),
    (claim_C5_release_id (drainedState 2 1) 0).2.2 (by decide) (by decide)⟩

/-- C6: with a non-empty free-list `acquire_id` returns the front element;
immediately after a successful `release_id y` the next `acquire_id` returns
`y` (LIFO reuse of released ids); and when the free-list is empty and growth
succeeds, the freshly minted identifiers are appended to the back in
increasing order, so the smallest new id (the old watermark) is returned and
the remaining new ids stay queued in FIFO order. -/
theorem claim_C6_reuse_policy (r : ExplicitIntegralIdentifierRegistry)
    (y a : Nat) (rest : List Nat) :
    (r.free_id_alloc_chain = a :: rest →
      r.acquire_id =
        (.ok a, { r with free_ids := r.free_ids.erase a, free_id_alloc_chain := rest })) ∧
    ((r.release_id y).1 = .ok () → ((r.release_id y).2.acquire_id).1 = .ok y) ∧
    (r.free_id_alloc_chain = [] → 1 ≤ r.min_unallocated_id →
      r.min_unallocated_id ≤ USIZE_MAX - 2 →
      r.acquire_id.1 = .ok r.min_unallocated_id ∧
      r.acquire_id.2.free_id_alloc_chain =
        List.range' (r.min_unallocated_id + 1)
          (r.grown.min_unallocated_id - r.min_unallocated_id - 1)) := by
  refine ⟨fun hc => acquire_id_cons r a rest hc, fun hok => ?_, fun hc h1 h2 => ?_⟩
  · by_cases hall : y ∉ r.all_ids
    · simp [release_id, hall] at hok
    · by_cases hfree : y ∈ r.free_ids
      · simp [release_id, hall, hfree] at hok
      · have hrel :
            (r.release_id y).2.free_id_alloc_chain = y :: r.free_id_alloc_chain := by
          simp [release_id, hall, hfree]
        rw [acquire_id_cons _ _ _ hrel]
  · rw [acquire_grow_success r hc h1 h2]
    exact ⟨rfl, rfl⟩

/-- C6 witness: the three conjuncts of `claim_C6_reuse_policy` at concrete
inputs (front of free-list, release-then-acquire, growth). -/
theorem claim_C6_reuse_policy_witness :
    ((ExplicitIntegralIdentifierRegistry.new 1).acquire_id =
      (.ok 0,
        { ExplicitIntegralIdentifierRegistry.new 1 with
            free_ids := (ExplicitIntegralIdentifierRegistry.new 1).free_ids.erase 0
            free_id_alloc_chain := [] })) ∧
    (((drainedState 1 1).release_id 0).2.acquire_id.1 = .ok 0) ∧
    ((drainedState 1 1).acquire_id.1 = .ok 1) := by
  refine ⟨(claim_C6_reuse_policy (ExplicitIntegralIdentifierRegistry.new 1) 0 0 []).1 rfl,
    (claim_C6_reuse_policy (drainedState 1 1) 0 0 []).2.1 rfl, ?_⟩
  exact ((claim_C6_reuse_policy (drainedState 1 1) 0 0 []).2.2 rfl (by decide)
    (by rw [usize_max_eq]; decide)).1

/-- C7, counterexample: with initial capacity `N = 2`, three acquisitions
return the three pairwise-distinct values 0, 1, 2 — that is `N + 1`, not `N`,
distinct values; moreover for `N = USIZE_MAX - 1` the claimed universal
success fails: the last of the `N + 1` acquisitions reports
`OutOfIdentifiers` because the watermark can no longer be doubled. -/
theorem claim_C7_counterexample :
    ((acquireSeq 3 (ExplicitIntegralIdentifierRegistry.new 2)).1 =
        [.ok 0, .ok 1, .ok 2] ∧
      ([0, 1, 2] : List Nat).Nodup ∧ ¬ (([0, 1, 2] : List Nat).length = 2)) ∧
    (acquireSeq USIZE_MAX
        (ExplicitIntegralIdentifierRegistry.new (USIZE_MAX - 1))).1.getLast? =
      some (.error .OutOfIdentifiers) := by
  have hMAX := usize_max_eq
  constructor
  · exact ⟨rfl, by decide, by decide⟩
  · obtain ⟨M, hM⟩ : ∃ M, USIZE_MAX - 1 = M := ⟨_, rfl⟩
    rw [hM, show USIZE_MAX = M + 1 by omega, acquireSeq_add M 1, acquireSeq_new]
    have hstuck :
        (drainedState M M).acquire_id = (.error .OutOfIdentifiers, drainedState M M) := by
      apply acquire_id_stuck
      · show List.range' M (M - M) = []
        rw [List.range'_eq_nil]
        omega
      · show M + min (USIZE_MAX - M) (M + 1) - 1 = M
        omega
    simp only [acquireSeq, hstuck]
    exact List.getLast?_concat _

/-- C7, amended: for every `N` with `1 ≤ N ≤ USIZE_MAX - 2`, acquiring `N + 1`
identifiers from a registry initialized with capacity `N` succeeds and returns
the `N + 1` distinct values `0, …, N`; the first `N` acquisitions leave the
watermark at `N` and the last triggers exactly one capacity growth, moving the
watermark to `N + min(USIZE_MAX - N, N + 1) - 1`. -/
theorem claim_C7_growth (N : Nat) (h1 : 1 ≤ N) (h2 : N ≤ USIZE_MAX - 2) :
    (acquireSeq (N + 1) (ExplicitIntegralIdentifierRegistry.new N)).1 =
      (List.range (N + 1)).map .ok ∧
    (List.range (N + 1)).Nodup ∧
    (acquireSeq N (ExplicitIntegralIdentifierRegistry.new N)).2.min_unallocated_id = N ∧
    (acquireSeq (N + 1) (ExplicitIntegralIdentifierRegistry.new N)).2.min_unallocated_id =
      N + min (USIZE_MAX - N) (N + 1) - 1 ∧
    N < (acquireSeq (N + 1)
      (ExplicitIntegralIdentifierRegistry.new N)).2.min_unallocated_id := by
  have hMAX := usize_max_eq
  have hsplit := acquireSeq_add N 1 (ExplicitIntegralIdentifierRegistry.new N)
  rw [acquireSeq_new] at hsplit
  have hdrain : (drainedState N N).min_unallocated_id = N := rfl
  have hchain : (drainedState N N).free_id_alloc_chain = [] := by
    show List.range' N (N - N) = []
    rw [List.range'_eq_nil]
    omega
  have hgrow := acquire_grow_success (drainedState N N) hchain (by rw [hdrain]; omega)
    (by rw [hdrain]; omega)
  refine ⟨?_, List.nodup_range N.succ, ?_, ?_, ?_⟩
  · rw [hsplit]
    simp only [acquireSeq, hgrow]
    rw [List.range_succ, List.map_append]
    rfl
  · rw [acquireSeq_new, hdrain]
  · rw [hsplit]
    simp only [acquireSeq, hgrow]
    show (drainedState N N).grown.min_unallocated_id = _
    rw [grown_min, hdrain]
  · rw [hsplit]
    simp only [acquireSeq, hgrow]
    show N < (drainedState N N).grown.min_unallocated_id
    rw [grown_min, hdrain]
    omega

/-- C7 witness: the amended claim at `N = 2` — three acquisitions from a
capacity-2 registry return 0, 1, 2, with the third moving the watermark from
2 to 4 (one doubling). -/
theorem claim_C7_growth_witness :
    (acquireSeq 3 (ExplicitIntegralIdentifierRegistry.new 2)).1 =
      (List.range 3).map .ok ∧
    (acquireSeq 3 (ExplicitIntegralIdentifierRegistry.new 2)).2.min_unallocated_id =
      2 + min (USIZE_MAX - 2) 3 - 1 :=
  have h := claim_C7_growth 2 (by decide) (by rw [usize_max_eq]; decide)
  ⟨h.1, h.2.2.2.1⟩

/-- C9: every sequence of acquire/release operations leaves the null registry
in its initial state, and `acquire_id` on it always fails with
`OutOfIdentifiers` without changing the state — no identifier can ever be
acquired from a null registry. -/
theorem claim_C9_null_registry (ops : List RegOp) :
    applyOps null_registry ops = null_registry ∧
    (applyOps null_registry ops).acquire_id =
      (.error .OutOfIdentifiers, null_registry) := by
  have h : applyOps null_registry ops = null_registry := by
    induction ops with
    | nil => rfl
    | cons op rest ih =>
      show applyOps (applyOp null_registry op) rest = null_registry
      rw [applyOp_null]
      exact ih
  exact ⟨h, by rw [h]; rfl⟩

end ExplicitIntegralIdentifierRegistry

/-! ### Association-list lemmas -/

theorem alookup_cons {α : Type} (k : Nat) (p : Nat × α) (m : AList α) :
    alookup k (p :: m) = if p.1 = k then some p.2 else alookup k m := by
  by_cases h : p.1 = k <;> simp [alookup, List.find?_cons, h]

theorem alookup_aremove_self {α : Type} (k : Nat) (m : AList α) :
    alookup k (aremove k m) = none := by
  induction m with
  | nil => rfl
  | cons p rest ih =>
    by_cases h : p.1 = k
    · simpa [aremove, List.filter_cons, h] using ih
    · simpa [aremove, List.filter_cons, h, alookup_cons] using ih

theorem alookup_aremove_ne {α : Type} (k k' : Nat) (h : ¬ k' = k) (m : AList α) :
    alookup k' (aremove k m) = alookup k' m := by
  induction m with
  | nil => rfl
  | cons p rest ih =>
    have ih' : alookup k' (List.filter (fun p => p.1 != k) rest) = alookup k' rest := ih
    by_cases hp : p.1 = k
    · have hk : ¬ k = k' := fun hh => h hh.symm
      simp [aremove, List.filter_cons, hp, alookup_cons, hk, ih']
    · simp [aremove, List.filter_cons, hp, alookup_cons, ih']

theorem alookup_ainsert_self {α : Type} (k : Nat) (v : α) (m : AList α) :
    alookup k (ainsert k v m) = some v := by
  simp [ainsert, alookup_cons]

theorem alookup_ainsert_ne {α : Type} (k k' : Nat) (v : α) (m : AList α) (h : ¬ k' = k) :
    alookup k' (ainsert k v m) = alookup k' m := by
  have h' : ¬ k = k' := by omega
  simp [ainsert, alookup_cons, h', alookup_aremove_ne k k' h m]

theorem alookup_mem {α : Type} (k : Nat) (m : AList α) (v : α)
    (h : alookup k m = some v) : (k, v) ∈ m := by
  unfold alookup at h
  cases hf : m.find? (fun p => p.1 == k) with
  | none => rw [hf] at h; cases h
  | some q =>
    rw [hf] at h
    have hq := List.find?_some hf
    have hqm : q ∈ m := List.mem_of_find?_eq_some hf
    have hk : q.1 = k := by simpa using hq
    cases h
    cases q
    simp_all

theorem getD_adjAppend_self (v : Nat) (pr : Nat × Nat) (m : AList (List (Nat × Nat))) :
    (alookup v (adjAppend v pr m)).getD [] = (alookup v m).getD [] ++ [pr] := by
  simp [adjAppend, alookup_ainsert_self]

theorem getD_adjAppend_ne (v w : Nat) (pr : Nat × Nat) (m : AList (List (Nat × Nat)))
    (h : ¬ w = v) :
    (alookup w (adjAppend v pr m)).getD [] = (alookup w m).getD [] := by
  rw [adjAppend, alookup_ainsert_ne v w _ m h]

/-! ### Graph lemmas for C4 and C8 -/

theorem descPairs_ok {Data W : Type} (g : Graph Data W) :
    ∀ l : List (Nat × Nat),
      (∀ p ∈ l, (alookup p.1 g.edges).isSome ∧ (alookup p.2 g.vertices).isSome) →
      ∃ out, descPairs g l = .ok out ∧
        ∀ p ∈ l, ∀ ed vd, alookup p.1 g.edges = some ed →
          alookup p.2 g.vertices = some vd → (ed, vd) ∈ out := by
  intro l
  induction l with
  | nil => intro _; exact ⟨[], rfl, by simp⟩
  | cons p rest ih =>
    intro h
    obtain ⟨he, hv⟩ := h p (by simp)
    obtain ⟨ed, hed⟩ := Option.isSome_iff_exists.mp he
    obtain ⟨vd, hvd⟩ := Option.isSome_iff_exists.mp hv
    obtain ⟨out, hout, hmem⟩ := ih (fun q hq => h q (by simp [hq]))
    refine ⟨(ed, vd) :: out, ?_, ?_⟩
    · simp [descPairs, hed, hvd, hout]
    · intro q hq ed' vd' hed' hvd'
      rcases List.mem_cons.mp hq with rfl | hq'
      · rw [hed, Option.some.injEq] at hed'
        rw [hvd, Option.some.injEq] at hvd'
        subst hed'
        subst hvd'
        exact List.mem_cons_self _ _
      · exact List.mem_cons_of_mem _ (hmem q hq' ed' vd' hed' hvd')

theorem wf_parts {Data W : Type} (g : Graph Data W) (hwf : WellFormedB g = true) :
    (∀ q ∈ g.vertices, q.2.id = q.1) ∧ (∀ q ∈ g.edges, q.2.id = q.1) ∧
    (∀ q ∈ g.forward_edges, ∀ p ∈ q.2,
      (alookup p.1 g.edges).isSome ∧ (alookup p.2 g.vertices).isSome) ∧
    (∀ q ∈ g.backward_edges, ∀ p ∈ q.2,
      (alookup p.1 g.edges).isSome ∧ (alookup p.2 g.vertices).isSome) := by
  unfold WellFormedB at hwf
  simp only [Bool.and_eq_true, List.all_eq_true, beq_iff_eq, Bool.and_eq_true] at hwf
  obtain ⟨⟨⟨h1, h2⟩, h3⟩, h4⟩ := hwf
  exact ⟨h1, h2, fun q hq p hp => (h3 q hq p hp), fun q hq p hp => (h4 q hq p hp)⟩

theorem wf_fwd_lookup {Data W : Type} (g : Graph Data W) (hwf : WellFormedB g = true)
    (u : Nat) :
    ∀ p ∈ fwdList g u, (alookup p.1 g.edges).isSome ∧ (alookup p.2 g.vertices).isSome := by
  intro p hp
  unfold fwdList fwdOf at hp
  cases hl : alookup u g.forward_edges with
  | none => rw [hl] at hp; cases hp
  | some l =>
    rw [hl] at hp
    exact (wf_parts g hwf).2.2.1 (u, l) (alookup_mem u _ l hl) p hp

theorem wf_bwd_lookup {Data W : Type} (g : Graph Data W) (hwf : WellFormedB g = true)
    (v : Nat) :
    ∀ p ∈ bwdList g v, (alookup p.1 g.edges).isSome ∧ (alookup p.2 g.vertices).isSome := by
  intro p hp
  unfold bwdList fwdOf at hp
  cases hl : alookup v g.backward_edges with
  | none => rw [hl] at hp; cases hp
  | some l =>
    rw [hl] at hp
    exact (wf_parts g hwf).2.2.2 (v, l) (alookup_mem v _ l hl) p hp

theorem wf_vertex_id {Data W : Type} (g : Graph Data W) (hwf : WellFormedB g = true)
    (k : Nat) (vd : VertexDescriptor Data) (h : alookup k g.vertices = some vd) :
    vd.id = k :=
  (wf_parts g hwf).1 (k, vd) (alookup_mem k _ vd h)

theorem built_transpose {Data W : Type} (g : Graph Data W) (hb : Built g) :
    ∀ u e v, (e, v) ∈ fwdList g u ↔ (e, u) ∈ bwdList g v := by
  induction hb with
  | new vr er => intro u e v; simp [fwdList, bwdList, fwdOf, Graph.new, alookup]
  | add_vertex g0 d i g' hb0 hok ih =>
    intro u e v
    obtain ⟨hf, hbk⟩ : g'.forward_edges = g0.forward_edges ∧
        g'.backward_edges = g0.backward_edges := by
      unfold add_vertex at hok
      cases hacq : g0.vertex_id_registry.acquire_id with
      | mk res reg =>
        rw [hacq] at hok
        cases res with
        | ok nid =>
          simp only [Except.ok.injEq, Prod.mk.injEq] at hok
          rw [← hok.2]
          exact ⟨rfl, rfl⟩
        | error er => cases hok
    unfold fwdList bwdList
    rw [hf, hbk]
    exact ih u e v
  | add_edge g0 a b w i g' hb0 hok ih =>
    intro u e v
    obtain ⟨hf, hbk⟩ : g'.forward_edges = adjAppend a (i, b) g0.forward_edges ∧
        g'.backward_edges = adjAppend b (i, a) g0.backward_edges := by
      unfold add_edge at hok
      cases hacq : g0.edge_id_registry.acquire_id with
      | mk res reg =>
        rw [hacq] at hok
        cases res with
        | ok nid =>
          simp only [Except.ok.injEq, Prod.mk.injEq] at hok
          obtain ⟨rfl, rfl⟩ := hok
          exact ⟨rfl, rfl⟩
        | error er => cases hok
    have hmemf : (e, v) ∈ fwdList g' u ↔
        ((e, v) ∈ fwdList g0 u ∨ (u = a ∧ e = i ∧ v = b)) := by
      unfold fwdList fwdOf
      rw [hf]
      by_cases hu : u = a
      · subst hu
        rw [getD_adjAppend_self]
        simp [List.mem_append, Prod.ext_iff]
      · rw [getD_adjAppend_ne _ _ _ _ hu]
        simp [hu]
    have hmemb : (e, u) ∈ bwdList g' v ↔
        ((e, u) ∈ bwdList g0 v ∨ (v = b ∧ e = i ∧ u = a)) := by
      unfold bwdList fwdOf
      rw [hbk]
      by_cases hv : v = b
      · subst hv
        rw [getD_adjAppend_self]
        simp [List.mem_append, Prod.ext_iff]
      · rw [getD_adjAppend_ne _ _ _ _ hv]
        simp [hv]
    rw [hmemf, hmemb, ih u e v]
    constructor
    · rintro (h | ⟨rfl, rfl, rfl⟩)
      · exact Or.inl h
      · exact Or.inr ⟨rfl, rfl, rfl⟩
    · rintro (h | ⟨rfl, rfl, rfl⟩)
      · exact Or.inl h
      · exact Or.inr ⟨rfl, rfl, rfl⟩

/-! ### Claim theorems C4 and C8 -/

/-- C4: for every graph built by `add_vertex` / `add_edge`, `backward_edges`
is exactly the transpose of `forward_edges` — every edge `(e, v)` recorded in
`u`'s forward adjacency appears as `(e, u)` in `v`'s backward adjacency and
conversely; `reverse_graph` swaps the two adjacency indices exactly, leaving
vertices, edges, and both registries unchanged; and under well-formedness,
`v` with that edge's descriptor appears in `out_neighbours_of u`, and `u`
with the same edge descriptor appears in `in_neighbours_of v`. -/
theorem claim_C4_adjacency_symmetry {Data W : Type} (g : Graph Data W) (hb : Built g) :
    (∀ u e v, (e, v) ∈ fwdList g u ↔ (e, u) ∈ bwdList g v) ∧
    (∀ x, fwdList g.reverse_graph x = bwdList g x ∧ bwdList g.reverse_graph x = fwdList g x) ∧
    g.reverse_graph.vertices = g.vertices ∧
    g.reverse_graph.edges = g.edges ∧
    g.reverse_graph.vertex_id_registry = g.vertex_id_registry ∧
    g.reverse_graph.edge_id_registry = g.edge_id_registry ∧
    (WellFormedB g = true → ∀ u e v, (e, v) ∈ fwdList g u →
      ∃ ed vd ud out inn,
        alookup e g.edges = some ed ∧ alookup v g.vertices = some vd ∧
        alookup u g.vertices = some ud ∧
        out_neighbours_of g u = .ok out ∧ (ed, vd) ∈ out ∧
        in_neighbours_of g v = .ok inn ∧ (ed, ud) ∈ inn) := by
  refine ⟨built_transpose g hb, fun x => ⟨rfl, rfl⟩, rfl, rfl, rfl, rfl, ?_⟩
  intro hwf u e v hmem
  have hback : (e, u) ∈ bwdList g v := (built_transpose g hb u e v).mp hmem
  obtain ⟨he, hv⟩ := wf_fwd_lookup g hwf u (e, v) hmem
  obtain ⟨-, hu⟩ := wf_bwd_lookup g hwf v (e, u) hback
  obtain ⟨ed, hed⟩ := Option.isSome_iff_exists.mp he
  obtain ⟨vd, hvd⟩ := Option.isSome_iff_exists.mp hv
  obtain ⟨ud, hud⟩ := Option.isSome_iff_exists.mp hu
  obtain ⟨out, hout, hmemout⟩ := descPairs_ok g (fwdList g u) (wf_fwd_lookup g hwf u)
  obtain ⟨inn, hinn, hmeminn⟩ := descPairs_ok g (bwdList g v) (wf_bwd_lookup g hwf v)
  exact ⟨ed, vd, ud, out, inn, hed, hvd, hud, hout,
    hmemout (e, v) hmem ed vd hed hvd, hinn, hmeminn (e, u) hback ed ud hed hud⟩

/-- C4 helper: `pairGraph3` (two vertices 0, 1 and the edge 0 → 1) is built
by `add_vertex` / `add_edge` operations. -/
theorem pairGraph3_built : Built pairGraph3 := by
  have h0 : Built pairGraph0 := Built.new _ _
  have h1 : Built pairGraph1 := Built.add_vertex pairGraph0 () 0 pairGraph1 h0 rfl
  have h2 : Built pairGraph2 := Built.add_vertex pairGraph1 () 1 pairGraph2 h1 rfl
  exact Built.add_edge pairGraph2 0 1 () 0 pairGraph3 h2 rfl

/-- C4 witness: the adjacency symmetry and reverse-swap conjuncts evaluated
on the concrete built graph `pairGraph3`. -/
theorem claim_C4_adjacency_symmetry_witness :
    ((0, 1) ∈ fwdList pairGraph3 0 ↔ (0, 0) ∈ bwdList pairGraph3 1) ∧
    fwdList pairGraph3.reverse_graph 1 = bwdList pairGraph3 1 :=
  ⟨(claim_C4_adjacency_symmetry pairGraph3 pairGraph3_built).1 0 0 1,
    ((claim_C4_adjacency_symmetry pairGraph3 pairGraph3_built).2.1 1).1⟩

/-- C8: for a vertex id present in the graph, `map_vertex` replaces that
vertex's payload with the transform applied to the old payload, reinserted
under the same id, and leaves every other vertex, the edges, both adjacency
indices and both registries unchanged; it fails if the id is absent. -/
theorem claim_C8_map_vertex {Data W : Type} (g : Graph Data W) (id : Nat)
    (f : Data → Data) :
    (∀ vd, alookup id g.vertices = some vd →
      ∃ g', map_vertex g id f = .ok g' ∧
        alookup id g'.vertices = some (vd.map f) ∧
        (∀ k, ¬ k = id → alookup k g'.vertices = alookup k g.vertices) ∧
        g'.edges = g.edges ∧
        g'.forward_edges = g.forward_edges ∧
        g'.backward_edges = g.backward_edges ∧
        g'.vertex_id_registry = g.vertex_id_registry ∧
        g'.edge_id_registry = g.edge_id_registry) ∧
    (alookup id g.vertices = none → map_vertex g id f = .error ()) := by
  constructor
  · intro vd hvd
    refine ⟨{ g with vertices := ainsert id (vd.map f) (aremove id g.vertices) }, ?_,
      alookup_ainsert_self id _ _, ?_, rfl, rfl, rfl, rfl, rfl⟩
    · unfold map_vertex
      rw [hvd]
    · intro k hk
      show alookup k (ainsert id (vd.map f) (aremove id g.vertices)) = _
      rw [alookup_ainsert_ne id k _ _ hk, alookup_aremove_ne id k hk]
  · intro hnone
    unfold map_vertex
    rw [hnone]

/-! ### Neighbour-scan lemmas -/

theorem mem_adjTargets (adj : AList (List (Nat × Nat))) (x : Nat) :
    x ∈ adjTargets adj ↔ ∃ q ∈ adj, ∃ p ∈ q.2, p.2 = x := by
  unfold adjTargets
  rw [List.mem_toFinset]
  induction adj with
  | nil => simp
  | cons a rest ih =>
    simp only [List.foldr_cons, List.mem_append, List.mem_map, List.mem_cons, ih]
    constructor
    · rintro (⟨p, hp, rfl⟩ | ⟨q, hq, p, hp, rfl⟩)
      · exact ⟨a, Or.inl rfl, p, hp, rfl⟩
      · exact ⟨q, Or.inr hq, p, hp, rfl⟩
    · rintro ⟨q, hq | hq, p, hp, rfl⟩
      · subst hq; exact Or.inl ⟨p, hp, rfl⟩
      · exact Or.inr ⟨q, hq, p, hp, rfl⟩

theorem fwdOf_targets (adj : AList (List (Nat × Nat))) (v : Nat) :
    ∀ p ∈ fwdOf adj v, p.2 ∈ adjTargets adj := by
  intro p hp
  unfold fwdOf at hp
  cases hl : alookup v adj with
  | none => rw [hl] at hp; cases hp
  | some l =>
    rw [hl] at hp
    exact (mem_adjTargets adj p.2).mpr ⟨(v, l), alookup_mem v adj l hl, p, hp, rfl⟩

theorem scanNew_append (vfrom : Nat) :
    ∀ (l : List (Nat × Nat)) (c : Finset Nat) (q : List Transition),
      scanNew vfrom l c q = ((scanNew vfrom l c []).1, q ++ (scanNew vfrom l c []).2) := by
  intro l
  induction l with
  | nil => intro c q; simp [scanNew]
  | cons p rest ih =>
    intro c q
    obtain ⟨e, t⟩ := p
    by_cases ht : t ∈ c
    · simp only [scanNew, if_pos ht]
      exact ih c q
    · simp only [scanNew, if_neg ht]
      rw [ih (insert t c) (q ++ [(some (vfrom, e), t)]),
          ih (insert t c) ([] ++ [(some (vfrom, e), t)])]
      simp

theorem scanNew_new_spec (vfrom : Nat) :
    ∀ (l : List (Nat × Nat)) (c : Finset Nat),
      ((scanNew vfrom l c []).1 =
        c ∪ ((scanNew vfrom l c []).2.map (fun t => t.2)).toFinset) ∧
      ((scanNew vfrom l c []).2.map (fun t => t.2)).Nodup ∧
      (∀ t ∈ (scanNew vfrom l c []).2,
        t.2 ∉ c ∧ ∃ e, t = (some (vfrom, e), t.2) ∧ (e, t.2) ∈ l) ∧
      (∀ p ∈ l, p.2 ∈ (scanNew vfrom l c []).1) := by
  intro l
  induction l with
  | nil =>
    intro c
    refine ⟨by simp [scanNew], by simp [scanNew], by simp [scanNew], by simp⟩
  | cons hd rest ih =>
    intro c
    obtain ⟨e, t⟩ := hd
    by_cases ht : t ∈ c
    · have heq : scanNew vfrom ((e, t) :: rest) c [] = scanNew vfrom rest c [] := by
        simp [scanNew, ht]
      rw [heq]
      obtain ⟨h1, h2, h3, h4⟩ := ih c
      refine ⟨h1, h2, ?_, ?_⟩
      · intro x hx
        obtain ⟨hnc, e', hsh, hmem⟩ := h3 x hx
        exact ⟨hnc, e', hsh, List.mem_cons_of_mem _ hmem⟩
      · intro p hp
        rcases List.mem_cons.mp hp with rfl | hp'
        · rw [h1]; exact Finset.mem_union_left _ ht
        · exact h4 p hp'
    · have heq : scanNew vfrom ((e, t) :: rest) c [] =
          ((scanNew vfrom rest (insert t c) []).1,
            (some (vfrom, e), t) :: (scanNew vfrom rest (insert t c) []).2) := by
        simp only [scanNew, if_neg ht, List.nil_append]
        rw [scanNew_append vfrom rest (insert t c) [(some (vfrom, e), t)]]
        simp
      rw [heq]
      obtain ⟨h1, h2, h3, h4⟩ := ih (insert t c)
      refine ⟨?_, ?_, ?_, ?_⟩
      · rw [h1]
        ext x
        simp only [Finset.mem_union, Finset.mem_insert, List.mem_toFinset,
          List.map_cons, List.mem_cons]
        tauto
      · simp only [List.map_cons, List.nodup_cons]
        refine ⟨?_, h2⟩
        intro hmem
        obtain ⟨x, hx, hxt⟩ := List.mem_map.mp hmem
        obtain ⟨hnc, -⟩ := h3 x hx
        rw [hxt] at hnc
        exact hnc (Finset.mem_insert_self t c)
      · intro x hx
        rcases List.mem_cons.mp hx with rfl | hx'
        · exact ⟨ht, e, rfl, by simp⟩
        · obtain ⟨hnc, e', hsh, hmem⟩ := h3 x hx'
          exact ⟨fun hxc => hnc (Finset.mem_insert_of_mem hxc), e', hsh,
            List.mem_cons_of_mem _ hmem⟩
      · intro p hp
        rcases List.mem_cons.mp hp with rfl | hp'
        · rw [h1]; exact Finset.mem_union_left _ (Finset.mem_insert_self t c)
        · exact h4 p hp'

theorem scanNew_measure (T : Finset Nat) (vfrom : Nat) :
    ∀ (l : List (Nat × Nat)) (c : Finset Nat) (q : List Transition),
      (∀ p ∈ l, p.2 ∈ T) →
      (T \ (scanNew vfrom l c q).1).card + (scanNew vfrom l c q).2.length ≤
        (T \ c).card + q.length := by
  intro l
  induction l with
  | nil => intro c q _; simp [scanNew]
  | cons hd rest ih =>
    intro c q h
    obtain ⟨e, t⟩ := hd
    by_cases ht : t ∈ c
    · simp only [scanNew, if_pos ht]
      exact ih c q (fun p hp => h p (List.mem_cons_of_mem _ hp))
    · simp only [scanNew, if_neg ht]
      have hT : t ∈ T := h (e, t) (by simp)
      have hstep := ih (insert t c) (q ++ [(some (vfrom, e), t)])
        (fun p hp => h p (List.mem_cons_of_mem _ hp))
      have hcard : (T \ insert t c).card + 1 = (T \ c).card := by
        have hins : T \ insert t c = (T \ c).erase t := by
          ext x
          simp only [Finset.mem_sdiff, Finset.mem_insert, Finset.mem_erase]
          tauto
        have hmem : t ∈ T \ c := Finset.mem_sdiff.mpr ⟨hT, ht⟩
        rw [hins, Finset.card_erase_of_mem hmem]
        have hpos : 0 < (T \ c).card := Finset.card_pos.mpr ⟨t, hmem⟩
        omega
      rw [List.length_append] at hstep
      simp only [List.length_singleton] at hstep
      omega

/-! ### Fuel lemmas and clean equations for the BFS trace -/

theorem bfsGo_fuel_eq (adj : AList (List (Nat × Nat))) :
    ∀ (f₁ : Nat) (q : List Transition) (c : Finset Nat) (f₂ : Nat),
      bfsFuel adj q c ≤ f₁ → bfsFuel adj q c ≤ f₂ →
      bfsGo adj f₁ q c = bfsGo adj f₂ q c := by
  intro f₁
  induction f₁ with
  | zero => intro q c f₂ h₁ _; exact absurd h₁ (by unfold bfsFuel; omega)
  | succ f ih =>
    intro q c f₂ h₁ h₂
    rcases f₂ with _ | f₂'
    · exact absurd h₂ (by unfold bfsFuel; omega)
    rcases q with _ | ⟨⟨me, v⟩, rest⟩
    · rfl
    · simp only [bfsGo]
      congr 1
      have hm := scanNew_measure (adjTargets adj) v (fwdOf adj v) c rest
        (fwdOf_targets adj v)
      unfold bfsFuel at h₁ h₂
      simp only [List.length_cons] at h₁ h₂
      refine ih _ _ _ ?_ ?_ <;> (unfold bfsFuel; omega)

theorem bfsAux_nil (adj : AList (List (Nat × Nat))) (c : Finset Nat) :
    bfsAux adj [] c = [] := by
  unfold bfsAux
  cases bfsFuel adj [] c with
  | zero => rfl
  | succ n => rfl

theorem bfsAux_cons (adj : AList (List (Nat × Nat))) (me : Option (Nat × Nat))
    (v : Nat) (rest : List Transition) (c : Finset Nat) :
    bfsAux adj ((me, v) :: rest) c =
      (me, v) ::
        bfsAux adj (scanNew v (fwdOf adj v) c rest).2 (scanNew v (fwdOf adj v) c rest).1 := by
  have hm := scanNew_measure (adjTargets adj) v (fwdOf adj v) c rest (fwdOf_targets adj v)
  show bfsGo adj (bfsFuel adj ((me, v) :: rest) c) _ _ = _
  have hsucc : bfsFuel adj ((me, v) :: rest) c =
      ((adjTargets adj \ c).card + rest.length + 1) + 1 := by
    unfold bfsFuel
    simp only [List.length_cons]
    omega
  rw [hsucc]
  simp only [bfsGo]
  congr 1
  apply bfsGo_fuel_eq
  · unfold bfsFuel
    omega
  · exact le_rfl

/-! ### Wave decomposition of the BFS trace -/

theorem expandQ_acc (adj : AList (List (Nat × Nat))) :
    ∀ (q : List Transition) (c : Finset Nat) (acc : List Transition),
      q.foldl (fun acc t => scanNew t.2 (fwdOf adj t.2) acc.1 acc.2) (c, acc) =
        ((expandQ adj c q).1, acc ++ (expandQ adj c q).2) := by
  intro q
  induction q with
  | nil => intro c acc; simp [expandQ]
  | cons t rest ih =>
    intro c acc
    have hsc := scanNew_append t.2 (fwdOf adj t.2) c acc
    have h1 := ih (scanNew t.2 (fwdOf adj t.2) c []).1
      (acc ++ (scanNew t.2 (fwdOf adj t.2) c []).2)
    have h2 := ih (scanNew t.2 (fwdOf adj t.2) c []).1 (scanNew t.2 (fwdOf adj t.2) c []).2
    have hexp : expandQ adj c (t :: rest) =
        ((expandQ adj (scanNew t.2 (fwdOf adj t.2) c []).1 rest).1,
          (scanNew t.2 (fwdOf adj t.2) c []).2 ++
            (expandQ adj (scanNew t.2 (fwdOf adj t.2) c []).1 rest).2) := by
      unfold expandQ
      simp only [List.foldl_cons]
      rw [show (scanNew t.2 (fwdOf adj t.2) c ([] : List Transition)) =
          ((scanNew t.2 (fwdOf adj t.2) c []).1, (scanNew t.2 (fwdOf adj t.2) c []).2)
        from rfl]
      exact h2
    simp only [List.foldl_cons]
    rw [hsc, h1, hexp]
    simp [List.append_assoc]

theorem expandQ_cons (adj : AList (List (Nat × Nat))) (t : Transition)
    (q : List Transition) (c : Finset Nat) :
    expandQ adj c (t :: q) =
      ((expandQ adj (scanNew t.2 (fwdOf adj t.2) c []).1 q).1,
        (scanNew t.2 (fwdOf adj t.2) c []).2 ++
          (expandQ adj (scanNew t.2 (fwdOf adj t.2) c []).1 q).2) := by
  unfold expandQ
  simp only [List.foldl_cons]
  rw [show (scanNew t.2 (fwdOf adj t.2) c ([] : List Transition)) =
      ((scanNew t.2 (fwdOf adj t.2) c []).1, (scanNew t.2 (fwdOf adj t.2) c []).2)
    from rfl]
  exact expandQ_acc adj q _ _

theorem bfsAux_wave (adj : AList (List (Nat × Nat))) :
    ∀ (q₁ q₂ : List Transition) (c : Finset Nat),
      bfsAux adj (q₁ ++ q₂) c =
        q₁ ++ bfsAux adj (q₂ ++ (expandQ adj c q₁).2) (expandQ adj c q₁).1 := by
  intro q₁
  induction q₁ with
  | nil => intro q₂ c; simp [expandQ]
  | cons t q₁' ih =>
    intro q₂ c
    obtain ⟨me, v⟩ := t
    rw [List.cons_append, bfsAux_cons, scanNew_append v (fwdOf adj v) c (q₁' ++ q₂),
      List.append_assoc]
    rw [ih (q₂ ++ (scanNew v (fwdOf adj v) c []).2) (scanNew v (fwdOf adj v) c []).1]
    rw [expandQ_cons adj (me, v) q₁' c]
    simp [List.append_assoc]

/-! ### Correspondence between the transition waves and the spec layering -/

theorem scanNew_layerScan (vfrom : Nat) :
    ∀ (l : List (Nat × Nat)) (c : Finset Nat) (q : List Transition)
      (outAcc : List Nat), outAcc = q.map (fun t => t.2) →
      l.foldl
        (fun acc p => if p.2 ∈ acc.1 then acc else (insert p.2 acc.1, acc.2 ++ [p.2]))
        (c, outAcc) =
        ((scanNew vfrom l c q).1, (scanNew vfrom l c q).2.map (fun t => t.2)) := by
  intro l
  induction l with
  | nil => intro c q outAcc h; simp [scanNew, h]
  | cons p rest ih =>
    intro c q outAcc h
    obtain ⟨e, t⟩ := p
    by_cases ht : t ∈ c
    · simp only [List.foldl_cons, scanNew, if_pos ht]
      exact ih c q outAcc h
    · simp only [List.foldl_cons, scanNew, if_neg ht]
      refine ih (insert t c) (q ++ [(some (vfrom, e), t)]) (outAcc ++ [t]) ?_
      simp [h]

theorem layerStep_acc (adj : AList (List (Nat × Nat))) :
    ∀ (q : List Transition) (c : Finset Nat) (qAcc : List Transition),
      (q.map (fun t => t.2)).foldl
        (fun acc v =>
          (fwdOf adj v).foldl
            (fun acc p => if p.2 ∈ acc.1 then acc else (insert p.2 acc.1, acc.2 ++ [p.2]))
            acc)
        (c, qAcc.map (fun t => t.2)) =
        ((q.foldl (fun acc t => scanNew t.2 (fwdOf adj t.2) acc.1 acc.2) (c, qAcc)).1,
          (q.foldl (fun acc t => scanNew t.2 (fwdOf adj t.2) acc.1 acc.2) (c, qAcc)).2.map
            (fun t => t.2)) := by
  intro q
  induction q with
  | nil => intro c qAcc; simp
  | cons t q' ih =>
    intro c qAcc
    simp only [List.map_cons, List.foldl_cons]
    rw [scanNew_layerScan t.2 (fwdOf adj t.2) c qAcc (qAcc.map (fun t => t.2)) rfl]
    exact ih (scanNew t.2 (fwdOf adj t.2) c qAcc).1 (scanNew t.2 (fwdOf adj t.2) c qAcc).2

theorem layerStep_expandQ (adj : AList (List (Nat × Nat))) (q : List Transition)
    (c : Finset Nat) :
    layerStep adj c (q.map (fun t => t.2)) =
      ((expandQ adj c q).1, (expandQ adj c q).2.map (fun t => t.2)) := by
  unfold layerStep expandQ
  have h := layerStep_acc adj q c []
  simpa using h

/-! ### The combined wave specification -/

theorem expandQ_spec (adj : AList (List (Nat × Nat))) :
    ∀ (q : List Transition) (c : Finset Nat),
      ((expandQ adj c q).1 =
        c ∪ ((expandQ adj c q).2.map (fun t => t.2)).toFinset) ∧
      ((expandQ adj c q).2.map (fun t => t.2)).Nodup ∧
      (∀ t ∈ (expandQ adj c q).2,
        t.2 ∉ c ∧ t.2 ∈ adjTargets adj ∧
        ∃ u e, u ∈ q.map (fun t => t.2) ∧ t = (some (u, e), t.2) ∧
          (e, t.2) ∈ fwdOf adj u) ∧
      (∀ u ∈ q.map (fun t => t.2), ∀ p ∈ fwdOf adj u, p.2 ∈ (expandQ adj c q).1) := by
  intro q
  induction q with
  | nil =>
    intro c
    refine ⟨by simp [expandQ], by simp [expandQ], by simp [expandQ], by simp⟩
  | cons t q' ih =>
    intro c
    rw [expandQ_cons adj t q' c]
    dsimp only
    obtain ⟨s1, s2, s3, s4⟩ := scanNew_new_spec t.2 (fwdOf adj t.2) c
    obtain ⟨i1, i2, i3, i4⟩ := ih (scanNew t.2 (fwdOf adj t.2) c []).1
    refine ⟨?_, ?_, ?_, ?_⟩
    · rw [i1, s1]
      ext x
      simp only [Finset.mem_union, List.mem_toFinset, List.map_append, List.mem_append]
      tauto
    · rw [List.map_append, List.nodup_append]
      refine ⟨s2, i2, ?_⟩
      intro x hx hx'
      obtain ⟨t1, ht1, rfl⟩ := List.mem_map.mp hx'
      obtain ⟨hnc, -, -⟩ := i3 t1 ht1
      rw [s1] at hnc
      exact hnc (Finset.mem_union_right _ (List.mem_toFinset.mpr hx))
    · intro x hx
      rcases List.mem_append.mp hx with hx1 | hx2
      · obtain ⟨hnc, e, hsh, hmem⟩ := s3 x hx1
        refine ⟨hnc, ?_, t.2, e, ?_, hsh, hmem⟩
        · exact fwdOf_targets adj t.2 (e, x.2) hmem
        · rw [List.map_cons]
          exact List.mem_cons_self _ _
      · obtain ⟨hnc, hT, u, e, hu, hsh, hmem⟩ := i3 x hx2
        refine ⟨?_, hT, u, e, ?_, hsh, hmem⟩
        · intro hxc
          apply hnc
          rw [s1]
          exact Finset.mem_union_left _ hxc
        · rw [List.map_cons]
          exact List.mem_cons_of_mem _ hu
    · intro u hu p hp
      rw [List.map_cons] at hu
      rcases List.mem_cons.mp hu with rfl | hu'
      · have hcov : p.2 ∈ (scanNew t.2 (fwdOf adj t.2) c []).1 := s4 p hp
        rw [i1]
        exact Finset.mem_union_left _ hcov
      · exact i4 u hu' p hp

/-! ### Fuel lemmas and clean equations for the spec layering -/

theorem slGo_layer_nil (adj : AList (List (Nat × Nat))) :
    ∀ (f : Nat) (c : Finset Nat), slGo adj f c [] = [] := by
  intro f c
  cases f <;> rfl

theorem specLayersAux_nil (adj : AList (List (Nat × Nat))) (c : Finset Nat) :
    specLayersAux adj c [] = [] :=
  slGo_layer_nil adj _ c

theorem layerStep_next_nonempty (adj : AList (List (Nat × Nat))) (c : Finset Nat)
    (layer : List Nat) (hne : (layerStep adj c layer).2 ≠ []) :
    ((adjTargets adj \ (layerStep adj c layer).1).card <
      (adjTargets adj \ c).card) ∧ c ⊆ (layerStep adj c layer).1 := by
  have hmap : layer = (layer.map (fun v => ((none : Option (Nat × Nat)), v))).map
      (fun t => t.2) := by
    rw [List.map_map]
    simp
  rw [hmap, layerStep_expandQ] at hne ⊢
  dsimp only at hne ⊢
  obtain ⟨e1, e2, e3, e4⟩ :=
    expandQ_spec adj (layer.map (fun v => ((none : Option (Nat × Nat)), v))) c
  have hsub : c ⊆ (expandQ adj c (layer.map (fun v => ((none : Option (Nat × Nat)), v)))).1 := by
    rw [e1]
    exact Finset.subset_union_left
  refine ⟨?_, hsub⟩
  obtain ⟨x, hx⟩ : ∃ x, x ∈ (expandQ adj c
      (layer.map (fun v => ((none : Option (Nat × Nat)), v)))).2 := by
    cases hq : (expandQ adj c (layer.map (fun v => ((none : Option (Nat × Nat)), v)))).2 with
    | nil => exact absurd (by rw [hq]; rfl) hne
    | cons a l => exact ⟨a, List.mem_cons_self a l⟩
  obtain ⟨hnc, hT, -⟩ := e3 x hx
  have hxcov : x.2 ∈ (expandQ adj c (layer.map (fun v => ((none : Option (Nat × Nat)), v)))).1 := by
    rw [e1]
    refine Finset.mem_union_right _ (List.mem_toFinset.mpr ?_)
    exact List.mem_map.mpr ⟨x, hx, rfl⟩
  apply Finset.card_lt_card
  rw [Finset.ssubset_iff_of_subset (Finset.sdiff_subset_sdiff Finset.Subset.rfl hsub)]
  exact ⟨x.2, Finset.mem_sdiff.mpr ⟨hT, hnc⟩, fun hmem => (Finset.mem_sdiff.mp hmem).2 hxcov⟩

theorem slGo_fuel_eq (adj : AList (List (Nat × Nat))) :
    ∀ (f₁ : Nat) (c : Finset Nat) (layer : List Nat) (f₂ : Nat),
      slFuel adj c ≤ f₁ → slFuel adj c ≤ f₂ →
      slGo adj f₁ c layer = slGo adj f₂ c layer := by
  intro f₁
  induction f₁ with
  | zero => intro c layer f₂ h₁ _; exact absurd h₁ (by unfold slFuel; omega)
  | succ f ih =>
    intro c layer f₂ h₁ h₂
    rcases f₂ with _ | f₂'
    · exact absurd h₂ (by unfold slFuel; omega)
    rcases layer with _ | ⟨x, xs⟩
    · rfl
    · simp only [slGo]
      congr 1
      cases hnext : (layerStep adj c (x :: xs)).2 with
      | nil => rw [slGo_layer_nil, slGo_layer_nil]
      | cons a l =>
        rw [← hnext]
        have hdec := layerStep_next_nonempty adj c (x :: xs) (by rw [hnext]; simp)
        unfold slFuel at h₁ h₂
        refine ih _ _ _ ?_ ?_ <;> (unfold slFuel; omega)

theorem specLayersAux_cons (adj : AList (List (Nat × Nat))) (c : Finset Nat)
    (x : Nat) (xs : List Nat) :
    specLayersAux adj c (x :: xs) =
      (x :: xs) ::
        specLayersAux adj (layerStep adj c (x :: xs)).1 (layerStep adj c (x :: xs)).2 := by
  show slGo adj (slFuel adj c) c (x :: xs) = _
  have hsucc : slFuel adj c = ((adjTargets adj \ c).card + 1) + 1 := by
    unfold slFuel; omega
  rw [hsucc]
  simp only [slGo]
  congr 1
  cases hnext : (layerStep adj c (x :: xs)).2 with
  | nil => rw [slGo_layer_nil, specLayersAux_nil]
  | cons a l =>
    rw [← hnext]
    have hdec := layerStep_next_nonempty adj c (x :: xs) (by rw [hnext]; simp)
    apply slGo_fuel_eq
    · unfold slFuel
      omega
    · exact le_rfl

/-! ### Hop-distance lemmas -/

theorem isDist_unique (adj : AList (List (Nat × Nat))) (s v d₁ d₂ : Nat)
    (h₁ : IsDist adj s v d₁) (h₂ : IsDist adj s v d₂) : d₁ = d₂ :=
  Nat.le_antisymm (h₁.2 d₂ h₂.1) (h₂.2 d₁ h₁.1)

theorem exists_isDist (adj : AList (List (Nat × Nat))) (s v : Nat) :
    ∀ n, ReachN adj s n v → ∃ d, IsDist adj s v d ∧ d ≤ n := by
  intro n
  induction n using Nat.strong_induction_on with
  | _ n ih =>
    intro h
    by_cases hmin : ∀ m, ReachN adj s m v → n ≤ m
    · exact ⟨n, ⟨h, hmin⟩, le_rfl⟩
    · push_neg at hmin
      obtain ⟨m, hm, hlt⟩ := hmin
      obtain ⟨d, hd, hdle⟩ := ih m hlt hm
      exact ⟨d, hd, by omega⟩

theorem isDist_succ (adj : AList (List (Nat × Nat))) (s v d : Nat)
    (h : IsDist adj s v (d + 1)) :
    ∃ u, IsDist adj s u d ∧ ∃ e, (e, v) ∈ fwdOf adj u := by
  obtain ⟨hr, hmin⟩ := h
  obtain ⟨u, hru, e, he⟩ := hr
  obtain ⟨du, hdu, hdule⟩ := exists_isDist adj s u d hru
  have hreach : ReachN adj s (du + 1) v := ⟨u, hdu.1, e, he⟩
  have hge := hmin (du + 1) hreach
  have heq : du = d := by omega
  subst heq
  exact ⟨u, hdu, e, he⟩

theorem no_isDist_above (adj : AList (List (Nat × Nat))) (s d : Nat)
    (h : ∀ v, ¬ IsDist adj s v d) :
    ∀ k, d ≤ k → ∀ v, ¬ IsDist adj s v k := by
  intro k hk
  induction k, hk using Nat.le_induction with
  | base => exact h
  | succ k hdk ih =>
    intro v hv
    obtain ⟨u, hu, -⟩ := isDist_succ adj s v k hv
    exact ih u hu

theorem isDist_zero_iff (adj : AList (List (Nat × Nat))) (s v : Nat) :
    IsDist adj s v 0 ↔ v = s := by
  constructor
  · intro h
    exact h.1
  · rintro rfl
    exact ⟨rfl, fun m _ => Nat.zero_le m⟩

theorem reachable_iff_isDist (adj : AList (List (Nat × Nat))) (s v : Nat) :
    Reachable adj s v ↔ ∃ d, IsDist adj s v d := by
  constructor
  · rintro ⟨n, hn⟩
    obtain ⟨d, hd, -⟩ := exists_isDist adj s v n hn
    exact ⟨d, hd⟩
  · rintro ⟨d, hd⟩
    exact ⟨d, hd.1⟩

/-! ### Distance characterization of the spec layering -/

theorem layerStep_char (adj : AList (List (Nat × Nat))) (s : Nat) (c : Finset Nat)
    (layer : List Nat) (d : Nat)
    (hlayer : ∀ v, v ∈ layer ↔ IsDist adj s v d)
    (hc : ∀ v, v ∈ c ↔ ∃ k, k ≤ d ∧ IsDist adj s v k) :
    (∀ v, v ∈ (layerStep adj c layer).2 ↔ IsDist adj s v (d + 1)) ∧
    (layerStep adj c layer).2.Nodup ∧
    (∀ v, v ∈ (layerStep adj c layer).1 ↔ ∃ k, k ≤ d + 1 ∧ IsDist adj s v k) := by
  have hmap : layer =
      (layer.map (fun v => ((none : Option (Nat × Nat)), v))).map (fun t => t.2) := by
    rw [List.map_map]
    simp
  rw [hmap, layerStep_expandQ]
  dsimp only
  obtain ⟨e1, e2, e3, e4⟩ :=
    expandQ_spec adj (layer.map (fun v => ((none : Option (Nat × Nat)), v))) c
  have hqids :
      (layer.map (fun v => ((none : Option (Nat × Nat)), v))).map (fun t => t.2) = layer := by
    rw [List.map_map]
    simp
  have hnext : ∀ v,
      v ∈ (expandQ adj c (layer.map (fun v => ((none : Option (Nat × Nat)), v)))).2.map
        (fun t => t.2) ↔ IsDist adj s v (d + 1) := by
    intro v
    constructor
    · intro hv
      obtain ⟨t, ht, rfl⟩ := List.mem_map.mp hv
      obtain ⟨hnc, hT, u, e, hu, hsh, hmem⟩ := e3 t ht
      rw [hqids] at hu
      have hud : IsDist adj s u d := (hlayer u).mp hu
      have hreach : ReachN adj s (d + 1) t.2 := ⟨u, hud.1, e, hmem⟩
      obtain ⟨dv, hdv, hdvle⟩ := exists_isDist adj s t.2 (d + 1) hreach
      have hnotle : ¬ ∃ k, k ≤ d ∧ IsDist adj s t.2 k := fun hk => hnc ((hc t.2).mpr hk)
      have hdeq : dv = d + 1 := by
        by_contra hne
        exact hnotle ⟨dv, by omega, hdv⟩
      rwa [← hdeq]
    · intro hv
      obtain ⟨u, hu, e, he⟩ := isDist_succ adj s v d hv
      have humem : u ∈ (layer.map (fun v => ((none : Option (Nat × Nat)), v))).map
          (fun t => t.2) := by
        rw [hqids]
        exact (hlayer u).mpr hu
      have hcov := e4 u humem (e, v) he
      rw [e1] at hcov
      rcases Finset.mem_union.mp hcov with hcv | hnew
      · exfalso
        obtain ⟨k, hk, hdk⟩ := (hc v).mp hcv
        have := isDist_unique adj s v _ _ hdk hv
        omega
      · exact List.mem_toFinset.mp hnew
  refine ⟨hnext, e2, ?_⟩
  intro v
  rw [e1]
  simp only [Finset.mem_union, List.mem_toFinset]
  constructor
  · rintro (hcv | hnew)
    · obtain ⟨k, hk, hdk⟩ := (hc v).mp hcv
      exact ⟨k, by omega, hdk⟩
    · exact ⟨d + 1, le_rfl, (hnext v).mp hnew⟩
  · rintro ⟨k, hk, hdk⟩
    rcases Nat.lt_or_ge k (d + 1) with hlt | hge
    · exact Or.inl ((hc v).mpr ⟨k, by omega, hdk⟩)
    · have hkeq : k = d + 1 := by omega
      subst hkeq
      exact Or.inr ((hnext v).mpr hdk)

/-- The distance-ordering relation used to state that BFS visits vertices in
non-decreasing hop distance. -/
def DistLE (adj : AList (List (Nat × Nat))) (s : Nat) (u v : Nat) : Prop :=
  ∀ du dv, IsDist adj s u du → IsDist adj s v dv → du ≤ dv

theorem specLayers_char_stop (adj : AList (List (Nat × Nat))) (s : Nat)
    (layer : List Nat) (d : Nat)
    (hlayer : ∀ v, v ∈ layer ↔ IsDist adj s v d)
    (hnd : layer.Nodup)
    (hempty : ∀ v, ¬ IsDist adj s v (d + 1)) :
    (∀ v, v ∈ layer ↔ ∃ k, d ≤ k ∧ IsDist adj s v k) ∧
    layer.Nodup ∧
    layer.Pairwise (DistLE adj s) := by
  refine ⟨?_, hnd, ?_⟩
  · intro v
    rw [hlayer v]
    constructor
    · intro h
      exact ⟨d, le_rfl, h⟩
    · rintro ⟨k, hk, hdk⟩
      rcases Nat.eq_or_lt_of_le hk with rfl | hlt
      · exact hdk
      · exact absurd hdk (no_isDist_above adj s (d + 1) hempty k (by omega) v)
  · refine List.pairwise_of_forall_mem_list ?_
    intro u hu v hv
    intro du dv h1 h2
    have e1 := isDist_unique adj s u _ _ h1 ((hlayer u).mp hu)
    have e2 := isDist_unique adj s v _ _ h2 ((hlayer v).mp hv)
    omega

theorem specLayers_characterization (adj : AList (List (Nat × Nat))) (s : Nat) :
    ∀ (n : Nat) (c : Finset Nat) (layer : List Nat) (d : Nat),
      (adjTargets adj \ c).card ≤ n →
      (∀ v, v ∈ layer ↔ IsDist adj s v d) →
      layer.Nodup →
      (∀ v, v ∈ c ↔ ∃ k, k ≤ d ∧ IsDist adj s v k) →
      (∀ v, v ∈ (specLayersAux adj c layer).flatten ↔ ∃ k, d ≤ k ∧ IsDist adj s v k) ∧
      (specLayersAux adj c layer).flatten.Nodup ∧
      (specLayersAux adj c layer).flatten.Pairwise (DistLE adj s) := by
  intro n
  induction n using Nat.strong_induction_on with
  | _ n ih =>
    intro c layer d hcard hlayer hnd hc
    rcases hl : layer with _ | ⟨x, xs⟩
    · subst hl
      rw [specLayersAux_nil]
      refine ⟨?_, List.nodup_nil, List.Pairwise.nil⟩
      intro v
      constructor
      · intro h
        cases h
      · rintro ⟨k, hk, hdk⟩
        have hnod : ∀ v, ¬ IsDist adj s v d := fun v hv => by
          have := (hlayer v).mpr hv
          cases this
        exact absurd hdk (no_isDist_above adj s d hnod k hk v)
    · subst hl
      obtain ⟨hnext, hndnext, hc'⟩ := layerStep_char adj s c (x :: xs) d hlayer hc
      rw [specLayersAux_cons, List.flatten_cons]
      by_cases hnil : (layerStep adj c (x :: xs)).2 = []
      · rw [hnil, specLayersAux_nil]
        have hempty : ∀ v, ¬ IsDist adj s v (d + 1) := by
          intro v hv
          have := (hnext v).mpr hv
          rw [hnil] at this
          cases this
        obtain ⟨g1, g2, g3⟩ := specLayers_char_stop adj s (x :: xs) d hlayer hnd hempty
        refine ⟨?_, by simpa using g2, by simpa using g3⟩
        intro v
        rw [show (x :: xs) ++ ([] : List (List Nat)).flatten = (x :: xs) by simp]
        exact g1 v
      · have hdec := layerStep_next_nonempty adj c (x :: xs) hnil
        obtain ⟨ji, jn, jp⟩ := ih ((adjTargets adj \ (layerStep adj c (x :: xs)).1).card)
          (by omega) (layerStep adj c (x :: xs)).1 (layerStep adj c (x :: xs)).2 (d + 1)
          le_rfl hnext hndnext hc'
        refine ⟨?_, ?_, ?_⟩
        · intro v
          rw [List.mem_append]
          constructor
          · rintro (hv | hv)
            · exact ⟨d, le_rfl, (hlayer v).mp hv⟩
            · obtain ⟨k, hk, hdk⟩ := (ji v).mp hv
              exact ⟨k, by omega, hdk⟩
          · rintro ⟨k, hk, hdk⟩
            rcases Nat.eq_or_lt_of_le hk with rfl | hlt
            · exact Or.inl ((hlayer v).mpr hdk)
            · exact Or.inr ((ji v).mpr ⟨k, by omega, hdk⟩)
        · rw [List.nodup_append]
          refine ⟨hnd, jn, ?_⟩
          intro v hv hv'
          have h1 := (hlayer v).mp hv
          obtain ⟨k, hk, hdk⟩ := (ji v).mp hv'
          have := isDist_unique adj s v _ _ h1 hdk
          omega
        · rw [List.pairwise_append]
          refine ⟨?_, jp, ?_⟩
          · refine List.pairwise_of_forall_mem_list ?_
            intro u hu v hv du dv h1 h2
            have e1 := isDist_unique adj s u _ _ h1 ((hlayer u).mp hu)
            have e2 := isDist_unique adj s v _ _ h2 ((hlayer v).mp hv)
            omega
          · intro u hu v hv du dv h1 h2
            have e1 := isDist_unique adj s u _ _ h1 ((hlayer u).mp hu)
            obtain ⟨k, hk, hdk⟩ := (ji v).mp hv
            have e2 := isDist_unique adj s v _ _ h2 hdk
            omega

/-! ### The BFS vertex order equals the flattened spec layering -/

theorem bfsAux_flatten_layers (adj : AList (List (Nat × Nat))) :
    ∀ (n : Nat) (q : List Transition) (c : Finset Nat),
      (adjTargets adj \ c).card ≤ n →
      (bfsAux adj q c).map (fun t => t.2) =
        (specLayersAux adj c (q.map (fun t => t.2))).flatten := by
  intro n
  induction n using Nat.strong_induction_on with
  | _ n ih =>
    intro q c hcard
    rcases q with _ | ⟨t, rest⟩
    · rw [bfsAux_nil]
      simp [specLayersAux_nil]
    · have hwave := bfsAux_wave adj (t :: rest) [] c
      simp only [List.append_nil, List.nil_append] at hwave
      rw [hwave, List.map_append,
        show (t :: rest).map (fun t => t.2) = t.2 :: rest.map (fun t => t.2)
          from List.map_cons _ _ _,
        specLayersAux_cons, List.flatten_cons]
      have hexp : layerStep adj c (t.2 :: rest.map (fun t => t.2)) =
          ((expandQ adj c (t :: rest)).1,
            (expandQ adj c (t :: rest)).2.map (fun t => t.2)) := by
        rw [show t.2 :: rest.map (fun t => t.2) = (t :: rest).map (fun t => t.2)
          from (List.map_cons _ _ _).symm]
        exact layerStep_expandQ adj (t :: rest) c
      rw [hexp]
      dsimp only
      congr 1
      by_cases hE2 : (expandQ adj c (t :: rest)).2 = []
      · rw [hE2, bfsAux_nil]
        simp [specLayersAux_nil]
      · have hne : (layerStep adj c (t.2 :: rest.map (fun t => t.2))).2 ≠ [] := by
          rw [hexp]
          dsimp only
          simpa using hE2
        have hdec := layerStep_next_nonempty adj c (t.2 :: rest.map (fun t => t.2)) hne
        rw [hexp] at hdec
        dsimp only at hdec
        exact ih ((adjTargets adj \ (expandQ adj c (t :: rest)).1).card) (by omega) _ _
          le_rfl

/-- The trace-side content of claim C1: the visit order is the flattened
spec layering, visits exactly the reachable set, has no duplicates, and is
sorted by non-decreasing hop distance. -/
theorem bfsVisits_spec {Data W : Type} (g : Graph Data W) (s : Nat) :
    bfsVisits g s = (bfsLayers g s).flatten ∧
    (∀ v, v ∈ bfsVisits g s ↔ Reachable g.forward_edges s v) ∧
    (bfsVisits g s).Nodup ∧
    (bfsVisits g s).Pairwise (DistLE g.forward_edges s) := by
  have hflat : bfsVisits g s = (specLayersAux g.forward_edges {s} [s]).flatten := by
    show (bfsAux g.forward_edges [(none, s)] {s}).map (fun t => t.2) = _
    rw [bfsAux_flatten_layers g.forward_edges
      ((adjTargets g.forward_edges \ {s}).card) _ _ le_rfl]
    rfl
  have hlayer0 : ∀ v, v ∈ [s] ↔ IsDist g.forward_edges s v 0 := by
    intro v
    rw [List.mem_singleton, isDist_zero_iff]
  have hc0 : ∀ v, v ∈ ({s} : Finset Nat) ↔
      ∃ k, k ≤ 0 ∧ IsDist g.forward_edges s v k := by
    intro v
    rw [Finset.mem_singleton]
    constructor
    · rintro rfl
      exact ⟨0, le_rfl, (isDist_zero_iff _ _ _).mpr rfl⟩
    · rintro ⟨k, hk, hdk⟩
      have hk0 : k = 0 := by omega
      subst hk0
      exact (isDist_zero_iff g.forward_edges s v).mp hdk
  obtain ⟨hcomp, hnd, hpair⟩ := specLayers_characterization g.forward_edges s
    ((adjTargets g.forward_edges \ {s}).card) {s} [s] 0 le_rfl hlayer0
    (List.nodup_singleton s) hc0
  refine ⟨by rw [hflat]; rfl, ?_, by rw [hflat]; exact hnd, by rw [hflat]; exact hpair⟩
  intro v
  rw [hflat, hcomp v, reachable_iff_isDist]
  constructor
  · rintro ⟨k, -, hdk⟩
    exact ⟨k, hdk⟩
  · rintro ⟨k, hdk⟩
    exact ⟨k, Nat.zero_le k, hdk⟩

/-! ### Correspondence of the visitor-driven loop with the trace replay -/

theorem bftGo_runTrace {σ Data W : Type} (g : Graph Data W)
    (V : GraphVisitor σ Data W) :
    ∀ (f : Nat) (st : σ) (q : List Transition) (c : Finset Nat),
      bftGo g V f st q c = runTrace g V st (bfsGo g.forward_edges f q c) := by
  intro f
  induction f with
  | zero => intro st q c; rfl
  | succ f ih =>
    intro st q c
    rcases q with _ | ⟨⟨me, v⟩, rest⟩
    · simp only [bftGo, bfsGo]
      split <;> rfl
    · simp only [bftGo, bfsGo, runTrace]
      by_cases hst : V.should_terminate st
      · rw [if_pos hst, if_pos hst]
      · rw [if_neg hst, if_neg hst]
        cases hv : alookup v g.vertices with
        | none => rfl
        | some vertex =>
          cases me with
          | none =>
            dsimp only
            exact ih _ _ _
          | some fe =>
            dsimp only
            cases he : alookup fe.2 g.edges with
            | none => rfl
            | some edge =>
              dsimp only
              exact ih _ _ _

theorem bft_eq_runTrace {σ Data W : Type} (g : Graph Data W) (source : Nat)
    (V : GraphVisitor σ Data W) (st : σ) (hs : (alookup source g.vertices).isSome) :
    breadth_first_traversal g source V st =
      runTrace g V (V.reset st) (bfsTrace g source) := by
  unfold breadth_first_traversal
  rw [if_pos hs]
  exact bftGo_runTrace g V _ _ _ _

theorem bfsGo_elem (adj : AList (List (Nat × Nat))) :
    ∀ (f : Nat) (q : List Transition) (c : Finset Nat),
      ∀ t ∈ bfsGo adj f q c,
        t ∈ q ∨ ∃ u e, t = (some (u, e), t.2) ∧ (e, t.2) ∈ fwdOf adj u := by
  intro f
  induction f with
  | zero => intro q c t ht; cases ht
  | succ f ih =>
    intro q c t ht
    rcases q with _ | ⟨⟨me, v⟩, rest⟩
    · cases ht
    · simp only [bfsGo] at ht
      rcases List.mem_cons.mp ht with rfl | ht'
      · exact Or.inl (List.mem_cons_self _ _)
      · rcases ih _ _ t ht' with hq | hsh
        · rw [scanNew_append] at hq
          rcases List.mem_append.mp hq with h1 | h2
          · exact Or.inl (List.mem_cons_of_mem _ h1)
          · obtain ⟨-, e, hsh, hmem⟩ := (scanNew_new_spec v (fwdOf adj v) c).2.2.1 t h2
            exact Or.inr ⟨v, e, hsh, hmem⟩
        · exact Or.inr hsh

theorem bfsTrace_lookups {Data W : Type} (g : Graph Data W) (s : Nat)
    (hwf : WellFormedB g = true) (hs : (alookup s g.vertices).isSome) :
    ∀ t ∈ bfsTrace g s,
      (alookup t.2 g.vertices).isSome ∧
      ∀ u e, t.1 = some (u, e) → (alookup e g.edges).isSome := by
  intro t ht
  rcases bfsGo_elem g.forward_edges _ _ _ t ht with hq | ⟨u, e, hsh, hmem⟩
  · have ht2 : t = (none, s) := List.mem_singleton.mp hq
    subst ht2
    exact ⟨hs, fun u e h => Option.noConfusion h⟩
  · have hwfl := wf_fwd_lookup g hwf u (e, t.2) hmem
    refine ⟨hwfl.2, ?_⟩
    intro u' e' hme
    have ht1 : t.1 = some (u, e) := by rw [hsh]
    rw [ht1, Option.some.injEq] at hme
    have he' : e' = e := by
      have h2 := congrArg Prod.snd hme
      simp at h2
      omega
    rw [he']
    exact hwfl.1

theorem runTrace_collector_true {Data W : Type} (g : Graph Data W)
    (hwf : WellFormedB g = true) :
    ∀ (trace : List Transition) (acc : List (VertexDescriptor Data)),
      (∀ t ∈ trace, (alookup t.2 g.vertices).isSome ∧
        ∀ u e, t.1 = some (u, e) → (alookup e g.edges).isSome) →
      ∃ out,
        runTrace g (VertexCollector Data W (fun _ => true)) acc trace = .ok out ∧
        out.map (fun d => d.id) = acc.map (fun d => d.id) ++ trace.map (fun t => t.2) := by
  intro trace
  induction trace with
  | nil => intro acc _; exact ⟨acc, rfl, by simp⟩
  | cons t rest ih =>
    intro acc h
    obtain ⟨hv, he⟩ := h t (List.mem_cons_self _ _)
    obtain ⟨vd, hvd⟩ := Option.isSome_iff_exists.mp hv
    obtain ⟨me, vid⟩ := t
    have hrest : ∀ t ∈ rest, (alookup t.2 g.vertices).isSome ∧
        ∀ u e, t.1 = some (u, e) → (alookup e g.edges).isSome :=
      fun t ht => h t (List.mem_cons_of_mem _ ht)
    have hid : vd.id = vid := wf_vertex_id g hwf vid vd hvd
    cases me with
    | none =>
      obtain ⟨out, hout, hids⟩ := ih (acc ++ [vd]) hrest
      refine ⟨out, ?_, ?_⟩
      · simp only [runTrace, VertexCollector, hvd]
        exact hout
      · rw [hids]
        simp [hid]
    | some fe =>
      obtain ⟨ed, hed⟩ := Option.isSome_iff_exists.mp (he fe.1 fe.2 rfl)
      obtain ⟨out, hout, hids⟩ := ih (acc ++ [vd]) hrest
      refine ⟨out, ?_, ?_⟩
      · simp only [runTrace, VertexCollector, hvd, hed]
        exact hout
      · rw [hids]
        simp [hid]

/-! ### Claim C1 -/

/-- C1: for every well-formed graph and source vertex in it, the traversal
calls the visitor along the canonical BFS transition trace (so any visitor
with constantly-false `should_terminate` receives `visit_vertex` exactly once
per trace entry); the source's own `VertexCollector` collects exactly
`bfsVisits g s`; that visit order contains exactly the vertices reachable
from the source, each exactly once, in non-decreasing hop distance, with
equidistant vertices ordered by the standard BFS layering (adjacency-list
insertion order at each level); and on the specification's example graph the
four stated visit orders hold. -/
theorem claim_C1_bfs_traversal {Data W : Type} (g : Graph Data W)
    (hwf : WellFormedB g = true) (s : Nat) (hs : (alookup s g.vertices).isSome) :
    (∀ (σ : Type) (V : GraphVisitor σ Data W) (st : σ),
      breadth_first_traversal g s V st = runTrace g V (V.reset st) (bfsTrace g s)) ∧
    (∃ out,
      breadth_first_traversal g s (VertexCollector Data W (fun _ => true)) [] = .ok out ∧
      out.map (fun d => d.id) = bfsVisits g s) ∧
    (∀ v, v ∈ bfsVisits g s ↔ Reachable g.forward_edges s v) ∧
    (bfsVisits g s).Nodup ∧
    (bfsVisits g s).Pairwise (DistLE g.forward_edges s) ∧
    bfsVisits g s = (bfsLayers g s).flatten ∧
    (bfsVisits exGraph 1 = [1, 2, 3, 4, 5] ∧ bfsVisits exGraph 2 = [2, 5] ∧
      bfsVisits exGraph 5 = [5, 2] ∧ bfsVisits exGraph 3 = [3, 2, 5, 4, 1]) := by
  obtain ⟨hflat, hcomp, hnd, hpair⟩ := bfsVisits_spec g s
  refine ⟨fun σ V st => bft_eq_runTrace g s V st hs, ?_, hcomp, hnd, hpair, hflat,
    by decide, by decide, by decide, by decide⟩
  rw [bft_eq_runTrace g s _ [] hs]
  obtain ⟨out, hout, hids⟩ := runTrace_collector_true g hwf (bfsTrace g s) []
    (bfsTrace_lookups g s hwf hs)
  exact ⟨out, hout, by simpa using hids⟩

/-- C1 witness: the example graph is well-formed, vertex 1 is in it, and BFS
from it visits `[1, 2, 3, 4, 5]`. -/
theorem claim_C1_bfs_traversal_witness :
    WellFormedB exGraph = true ∧ bfsVisits exGraph 1 = [1, 2, 3, 4, 5] :=
  ⟨by decide,
    (claim_C1_bfs_traversal exGraph (by decide) 1 (by decide)).2.2.2.2.2.2.1⟩

/-! ### Further association-list lemmas for the walk builder -/

theorem aremove_of_absent {α : Type} (k : Nat) (m : AList α)
    (h : alookup k m = none) : aremove k m = m := by
  induction m with
  | nil => rfl
  | cons p rest ih =>
    rw [alookup_cons] at h
    by_cases hp : p.1 = k
    · rw [if_pos hp] at h
      cases h
    · rw [if_neg hp] at h
      show List.filter _ _ = _
      rw [List.filter_cons, if_pos (by simp [hp])]
      congr 1
      exact ih h

theorem ainsert_length_of_absent {α : Type} (k : Nat) (v : α) (m : AList α)
    (h : alookup k m = none) : (ainsert k v m).length = m.length + 1 := by
  show (aremove k m).length + 1 = m.length + 1
  rw [aremove_of_absent k m h]

theorem alookup_none_of_not_mem_keys {α : Type} (k : Nat) (m : AList α)
    (h : ∀ v, ¬ alookup k m = some v) : alookup k m = none := by
  cases hl : alookup k m with
  | none => rfl
  | some v => exact absurd hl (h v)

theorem runTrace_stop {σ Data W : Type} (g : Graph Data W)
    (V : GraphVisitor σ Data W) (st : σ) (hst : V.should_terminate st = true) :
    ∀ L, runTrace g V st L = .ok st := by
  intro L
  cases L with
  | nil => rfl
  | cons t rest =>
    obtain ⟨me, v⟩ := t
    simp [runTrace, hst]

/-! ### Parent distances along the BFS trace -/

theorem bfsAux_parent_dist (adj : AList (List (Nat × Nat))) (s : Nat) :
    ∀ (n : Nat) (q : List Transition) (c : Finset Nat) (d : Nat),
      (adjTargets adj \ c).card ≤ n →
      (∀ v, v ∈ q.map (fun t => t.2) ↔ IsDist adj s v d) →
      (∀ v, v ∈ c ↔ ∃ k, k ≤ d ∧ IsDist adj s v k) →
      ∀ t ∈ bfsAux adj q c,
        t ∈ q ∨
        ∃ u e du, t.1 = some (u, e) ∧ (e, t.2) ∈ fwdOf adj u ∧
          IsDist adj s u du ∧ IsDist adj s t.2 (du + 1) := by
  intro n
  induction n using Nat.strong_induction_on with
  | _ n ih =>
    intro q c d hcard hq hc t ht
    rcases q with _ | ⟨t0, rest⟩
    · rw [bfsAux_nil] at ht
      cases ht
    · have hwave := bfsAux_wave adj (t0 :: rest) [] c
      simp only [List.append_nil, List.nil_append] at hwave
      rw [hwave] at ht
      rcases List.mem_append.mp ht with hq0 | ht'
      · exact Or.inl hq0
      · right
        obtain ⟨hnext, hndnext, hc'⟩ := layerStep_char adj s c
          ((t0 :: rest).map (fun t => t.2)) d hq hc
        have hexp := layerStep_expandQ adj (t0 :: rest) c
        rw [hexp] at hnext hndnext hc'
        dsimp only at hnext hndnext hc'
        obtain ⟨e1, e2, e3, e4⟩ := expandQ_spec adj (t0 :: rest) c
        by_cases hE2 : (expandQ adj c (t0 :: rest)).2 = []
        · rw [hE2, bfsAux_nil] at ht'
          cases ht'
        · have hq' : ∀ v, v ∈ (expandQ adj c (t0 :: rest)).2.map (fun t => t.2) ↔
              IsDist adj s v (d + 1) := hnext
          have hfact : ∀ t ∈ (expandQ adj c (t0 :: rest)).2,
              ∃ u e du, t.1 = some (u, e) ∧ (e, t.2) ∈ fwdOf adj u ∧
                IsDist adj s u du ∧ IsDist adj s t.2 (du + 1) := by
            intro t1 ht1
            obtain ⟨-, -, u, e, hu, hsh, hmem⟩ := e3 t1 ht1
            refine ⟨u, e, d, by rw [hsh], hmem, (hq u).mp hu, ?_⟩
            exact (hq' t1.2).mp (List.mem_map.mpr ⟨t1, ht1, rfl⟩)
          have hneL : (layerStep adj c ((t0 :: rest).map (fun t => t.2))).2 ≠ [] := by
            rw [hexp]
            dsimp only
            simpa using hE2
          have hdec := layerStep_next_nonempty adj c ((t0 :: rest).map (fun t => t.2)) hneL
          rw [hexp] at hdec
          dsimp only at hdec
          rcases ih ((adjTargets adj \ (expandQ adj c (t0 :: rest)).1).card) (by omega)
            (expandQ adj c (t0 :: rest)).2 (expandQ adj c (t0 :: rest)).1 (d + 1)
            le_rfl hq' hc' t ht' with hin | hshape
          · exact hfact t hin
          · exact hshape

theorem bfsTrace_parent_dist {Data W : Type} (g : Graph Data W) (s : Nat) :
    ∀ t ∈ bfsTrace g s,
      t = (none, s) ∨
      ∃ u e du, t.1 = some (u, e) ∧ (e, t.2) ∈ fwdOf g.forward_edges u ∧
        IsDist g.forward_edges s u du ∧ IsDist g.forward_edges s t.2 (du + 1) := by
  intro t ht
  have hlayer0 : ∀ v, v ∈ ([(none, s)] : List Transition).map (fun t => t.2) ↔
      IsDist g.forward_edges s v 0 := by
    intro v
    simp only [List.map_cons, List.map_nil, List.mem_singleton]
    exact (isDist_zero_iff g.forward_edges s v).symm
  have hc0 : ∀ v, v ∈ ({s} : Finset Nat) ↔
      ∃ k, k ≤ 0 ∧ IsDist g.forward_edges s v k := by
    intro v
    rw [Finset.mem_singleton]
    constructor
    · rintro rfl
      exact ⟨0, le_rfl, (isDist_zero_iff _ _ _).mpr rfl⟩
    · rintro ⟨k, hk, hdk⟩
      have hk0 : k = 0 := by omega
      subst hk0
      exact (isDist_zero_iff _ _ _).mp hdk
  rcases bfsAux_parent_dist g.forward_edges s ((adjTargets g.forward_edges \ {s}).card)
    [(none, s)] {s} 0 le_rfl hlayer0 hc0 t ht with hq | hsh
  · exact Or.inl (List.mem_singleton.mp hq)
  · exact Or.inr hsh

/-! ### Replay decomposition and trace-position facts for path finding -/

theorem runTrace_append {σ Data W : Type} (g : Graph Data W)
    (V : GraphVisitor σ Data W) :
    ∀ (l₁ l₂ : List Transition) (st : σ),
      runTrace g V st (l₁ ++ l₂) =
        match runTrace g V st l₁ with
        | .error e => .error e
        | .ok st1 => runTrace g V st1 l₂ := by
  intro l₁
  induction l₁ with
  | nil => intro l₂ st; rfl
  | cons t rest ih =>
    intro l₂ st
    obtain ⟨me, v⟩ := t
    simp only [List.cons_append, runTrace]
    by_cases hst : V.should_terminate st
    · rw [if_pos hst, if_pos hst]
      exact (runTrace_stop g V st hst l₂).symm
    · rw [if_neg hst, if_neg hst]
      cases hv : alookup v g.vertices with
      | none => rfl
      | some vertex =>
        dsimp only
        cases me with
        | none =>
          dsimp only
          exact ih l₂ _
        | some fe =>
          dsimp only
          cases he : alookup fe.2 g.edges with
          | none => rfl
          | some edge =>
            dsimp only
            exact ih l₂ _

theorem visits_decomp_not_mem {Data W : Type} (g : Graph Data W) (a : Nat)
    (pre post : List Transition) (t : Transition)
    (hdec : bfsTrace g a = pre ++ t :: post) :
    ¬ t.2 ∈ pre.map (fun t => t.2) := by
  obtain ⟨-, -, hnd, -⟩ := bfsVisits_spec g a
  have hv : bfsVisits g a =
      pre.map (fun t => t.2) ++ t.2 :: post.map (fun t => t.2) := by
    show (bfsTrace g a).map (fun t => t.2) = _
    rw [hdec]
    simp
  rw [hv] at hnd
  obtain ⟨-, -, hdisj⟩ := List.nodup_append.mp hnd
  intro hmem
  exact hdisj hmem (List.mem_cons_self _ _)

theorem trace_parent_mem_pre {Data W : Type} (g : Graph Data W) (a : Nat)
    (pre post : List Transition) (t : Transition) (u e du : Nat)
    (hdec : bfsTrace g a = pre ++ t :: post)
    (ht1 : t.1 = some (u, e))
    (hdu : IsDist g.forward_edges a u du)
    (hdt : IsDist g.forward_edges a t.2 (du + 1)) :
    u ∈ pre.map (fun t => t.2) := by
  obtain ⟨-, hcomp, -, hpair⟩ := bfsVisits_spec g a
  have hv : bfsVisits g a =
      pre.map (fun t => t.2) ++ t.2 :: post.map (fun t => t.2) := by
    show (bfsTrace g a).map (fun t => t.2) = _
    rw [hdec]
    simp
  have humem : u ∈ bfsVisits g a :=
    (hcomp u).mpr ((reachable_iff_isDist _ _ _).mpr ⟨du, hdu⟩)
  rw [hv] at humem hpair
  rcases List.mem_append.mp humem with hl | hr
  · exact hl
  · exfalso
    rcases List.mem_cons.mp hr with heq | hpost
    · have := isDist_unique _ _ _ _ _ (heq ▸ hdu) hdt
      omega
    · have hp := (List.pairwise_append.mp hpair).2.1
      have hDL := (List.pairwise_cons.mp hp).1 u hpost
      have := hDL _ _ hdt hdu
      omega

/-! ### Cardinality of back-edge chains (fuel sufficiency for `build_path`) -/

theorem back_chain_card {Data W : Type} (g : Graph Data W) (a : Nat)
    (visited : List Nat) (wb : WalkBuilder Data W)
    (hbel : ∀ x ∈ visited, ¬ x = a →
      ∃ u ed du, alookup x wb.back_edge_lookup = some (u, ed, x) ∧ u ∈ visited ∧
        IsDist g.forward_edges a u du ∧ IsDist g.forward_edges a x (du + 1)) :
    ∀ (k x : Nat), IsDist g.forward_edges a x k → x ∈ visited →
      ∃ S : Finset Nat, S ⊆ visited.toFinset ∧ S.card = k + 1 ∧
        ∀ y ∈ S, ∃ j, j ≤ k ∧ IsDist g.forward_edges a y j := by
  intro k
  induction k with
  | zero =>
    intro x hx hxv
    refine ⟨{x}, ?_, Finset.card_singleton x, ?_⟩
    · intro y hy
      rw [Finset.mem_singleton] at hy
      subst hy
      exact List.mem_toFinset.mpr hxv
    · intro y hy
      rw [Finset.mem_singleton] at hy
      subst hy
      exact ⟨0, le_rfl, hx⟩
  | succ k ih =>
    intro x hx hxv
    have hxa : ¬ x = a := by
      intro h
      subst h
      have := isDist_unique _ _ _ _ _ hx ((isDist_zero_iff _ _ _).mpr rfl)
      omega
    obtain ⟨u, ed, du, -, huv, hdu, hdx⟩ := hbel x hxv hxa
    have hdueq : du = k := by
      have := isDist_unique _ _ _ _ _ hdx hx
      omega
    rw [hdueq] at hdu
    obtain ⟨S, hsub, hcard, hprop⟩ := ih u hdu huv
    have hxS : x ∉ S := by
      intro hxS
      obtain ⟨j, hj, hdj⟩ := hprop x hxS
      have := isDist_unique _ _ _ _ _ hdj hx
      omega
    refine ⟨insert x S, ?_, ?_, ?_⟩
    · intro y hy
      rcases Finset.mem_insert.mp hy with rfl | hyS
      · exact List.mem_toFinset.mpr hxv
      · exact hsub hyS
    · rw [Finset.card_insert_of_not_mem hxS, hcard]
    · intro y hy
      rcases Finset.mem_insert.mp hy with rfl | hyS
      · exact ⟨k + 1, le_rfl, hx⟩
      · obtain ⟨j, hj, hdj⟩ := hprop y hyS
        exact ⟨j, by omega, hdj⟩

theorem wb_dist_le_length {Data W : Type} (g : Graph Data W) (a : Nat)
    (visited : List Nat) (wb : WalkBuilder Data W)
    (hbel : ∀ x ∈ visited, ¬ x = a →
      ∃ u ed du, alookup x wb.back_edge_lookup = some (u, ed, x) ∧ u ∈ visited ∧
        IsDist g.forward_edges a u du ∧ IsDist g.forward_edges a x (du + 1))
    (k x : Nat) (hx : IsDist g.forward_edges a x k) (hxv : x ∈ visited) :
    k + 1 ≤ visited.length := by
  obtain ⟨S, hsub, hcard, -⟩ := back_chain_card g a visited wb hbel k x hx hxv
  calc k + 1 = S.card := hcard.symm
    _ ≤ visited.toFinset.card := Finset.card_le_card hsub
    _ ≤ visited.length := visited.toFinset_card_le

/-! ### Correctness of the back-edge chase -/

theorem buildPathLoop_spec {Data W : Type} (g : Graph Data W) (a : Nat)
    (visited : List Nat) (wb : WalkBuilder Data W)
    (hwf : WellFormedB g = true)
    (hinit : wb.initial_vertex_id = a)
    (hvl : ∀ x ∈ visited, alookup x wb.vertex_lookup = alookup x g.vertices ∧
      (alookup x g.vertices).isSome)
    (hbel : ∀ x ∈ visited, ¬ x = a →
      ∃ u ed du, alookup x wb.back_edge_lookup = some (u, ed, x) ∧ u ∈ visited ∧
        IsDist g.forward_edges a u du ∧ IsDist g.forward_edges a x (du + 1)) :
    ∀ (k x : Nat) (vd : VertexDescriptor Data) (fuel : Nat)
      (vl : List (VertexDescriptor Data)) (el : List (EdgeDescriptor W)),
      IsDist g.forward_edges a x k → x ∈ visited →
      alookup x g.vertices = some vd → k + 1 ≤ fuel →
      ∃ vpre epre,
        buildPathLoop wb fuel vd vl el =
          .ok { vertices := vpre ++ vd :: vl, edges := epre ++ el } ∧
        vpre.length = k ∧ epre.length = k ∧
        (vpre ++ [vd]).head?.map (fun v => v.id) = some a := by
  intro k
  induction k with
  | zero =>
    intro x vd fuel vl el hdist hxv hvd hfuel
    have hxa : x = a := (isDist_zero_iff _ _ _).mp hdist
    have hid : vd.id = x := wf_vertex_id g hwf x vd hvd
    rcases fuel with _ | f
    · omega
    · refine ⟨[], [], ?_, rfl, rfl, by simp [hid, hxa]⟩
      simp only [buildPathLoop]
      rw [if_pos (by rw [hid, hxa, hinit])]
      simp
  | succ k ih =>
    intro x vd fuel vl el hdist hxv hvd hfuel
    have hid : vd.id = x := wf_vertex_id g hwf x vd hvd
    have hxa : ¬ x = a := by
      intro hx
      subst hx
      have := isDist_unique _ _ _ _ _ hdist ((isDist_zero_iff _ _ _).mpr rfl)
      omega
    obtain ⟨u, ed, du, hlook, huv, hudist, hxdist⟩ := hbel x hxv hxa
    have hdueq : du = k := by
      have := isDist_unique _ _ _ _ _ hxdist hdist
      omega
    rw [hdueq] at hudist
    obtain ⟨hul, hus⟩ := hvl u huv
    obtain ⟨ud, hud⟩ := Option.isSome_iff_exists.mp hus
    rcases fuel with _ | f
    · omega
    · obtain ⟨vpre, epre, hrec, hvlen, helen, hhead⟩ :=
        ih u ud f (vd :: vl) (ed :: el) hudist huv hud (by omega)
      refine ⟨vpre ++ [ud], epre ++ [ed], ?_, by simp [hvlen], by simp [helen], ?_⟩
      · simp only [buildPathLoop]
        rw [if_neg (show ¬ vd.id = wb.initial_vertex_id by rw [hid, hinit]; exact hxa)]
        have hlook' : alookup vd.id wb.back_edge_lookup = some (u, ed, x) := by
          rw [hid]
          exact hlook
        rw [hlook']
        dsimp only
        have hul' : alookup u wb.vertex_lookup = some ud := by
          rw [hul]
          exact hud
        rw [hul']
        dsimp only
        rw [hrec]
        simp
      · have hne2 : vpre ++ [ud] ≠ [] := by simp
        rw [List.head?_append_of_ne_nil (vpre ++ [ud]) hne2]
        exact hhead

/-! ### The walk-builder invariant along a target-free trace segment -/

theorem runTrace_wb_seg {Data W : Type} (g : Graph Data W)
    (hwf : WellFormedB g = true) (a b : Nat)
    (ha : (alookup a g.vertices).isSome) :
    ∀ (seg pre post : List Transition),
      bfsTrace g a = pre ++ seg ++ post →
      (∀ t ∈ seg, ¬ t.2 = b) →
      ∀ wb, WBInv g a b (pre.map (fun t => t.2)) wb →
      ∃ wb', runTrace g (walkBuilderVisitor Data W) wb seg = .ok wb' ∧
        WBInv g a b ((pre ++ seg).map (fun t => t.2)) wb' := by
  intro seg
  induction seg with
  | nil =>
    intro pre post hdec hnb wb hinv
    refine ⟨wb, rfl, ?_⟩
    rw [List.append_nil]
    exact hinv
  | cons t rest ih =>
    intro pre post hdec hnb wb hinv
    obtain ⟨me, x⟩ := t
    obtain ⟨hinit, hfin, hce, hpath, hvl, hvl2, hlen, hbel⟩ := hinv
    have hdec' : bfsTrace g a = pre ++ (me, x) :: (rest ++ post) := by
      rw [hdec]
      simp
    have ht_mem : ((me, x) : Transition) ∈ bfsTrace g a := by
      rw [hdec']
      exact List.mem_append.mpr (Or.inr (List.mem_cons_self _ _))
    obtain ⟨hvs, hes⟩ := bfsTrace_lookups g a hwf ha _ ht_mem
    obtain ⟨vd, hvd⟩ := Option.isSome_iff_exists.mp hvs
    have hid : vd.id = x := wf_vertex_id g hwf x vd hvd
    have hxb : ¬ x = b := hnb (me, x) (List.mem_cons_self _ _)
    have hx_not_pre : ¬ x ∈ pre.map (fun t => t.2) :=
      visits_decomp_not_mem g a pre (rest ++ post) (me, x) hdec'
    have hvlx : alookup x wb.vertex_lookup = none :=
      alookup_none_of_not_mem_keys _ _ (fun v hv => hx_not_pre (hvl2 x v hv))
    have hterm : ¬ (walkBuilderVisitor Data W).should_terminate wb = true := by
      simp [walkBuilderVisitor, hpath]
    have hpd := bfsTrace_parent_dist g a (me, x) ht_mem
    cases me with
    | none =>
      have hxa : x = a := by
        rcases hpd with heq | ⟨u, e, du, h1, -⟩
        · exact congrArg Prod.snd heq
        · exact absurd h1 (by simp)
      have hvv : (walkBuilderVisitor Data W).visit_vertex wb vd =
          { wb with vertex_lookup := ainsert x vd wb.vertex_lookup,
                    current_edge := none } := by
        simp only [walkBuilderVisitor]
        rw [hce]
        dsimp only
        rw [if_neg (show ¬ vd.id = wb.final_vertex_id by rw [hid, hfin]; exact hxb)]
        rw [hid]
      have hstep : runTrace g (walkBuilderVisitor Data W) wb
            (((none : Option (Nat × Nat)), x) :: rest) =
          runTrace g (walkBuilderVisitor Data W)
            { wb with vertex_lookup := ainsert x vd wb.vertex_lookup,
                      current_edge := none } rest := by
        simp only [runTrace]
        rw [if_neg hterm, hvd]
        dsimp only
        rw [hvv]
      have hinv' : WBInv g a b
          ((pre ++ [((none : Option (Nat × Nat)), x)]).map (fun t => t.2))
          { wb with vertex_lookup := ainsert x vd wb.vertex_lookup,
                    current_edge := none } := by
        have hmap : (pre ++ [((none : Option (Nat × Nat)), x)]).map (fun t => t.2) =
            pre.map (fun t => t.2) ++ [x] := by simp
        rw [hmap]
        refine ⟨hinit, hfin, rfl, hpath, ?_, ?_, ?_, ?_⟩
        · intro y hy
          dsimp only
          rcases List.mem_append.mp hy with hyp | hyx
          · have hyne : ¬ y = x := fun h => hx_not_pre (h ▸ hyp)
            rw [alookup_ainsert_ne x y vd wb.vertex_lookup hyne]
            exact hvl y hyp
          · have hyeq : y = x := List.mem_singleton.mp hyx
            subst hyeq
            rw [alookup_ainsert_self, hvd]
            exact ⟨rfl, rfl⟩
        · intro y w hy
          dsimp only at hy
          by_cases hyx : y = x
          · exact List.mem_append.mpr (Or.inr (by rw [hyx]; exact List.mem_singleton.mpr rfl))
          · rw [alookup_ainsert_ne x y vd wb.vertex_lookup hyx] at hy
            exact List.mem_append.mpr (Or.inl (hvl2 y w hy))
        · dsimp only
          rw [ainsert_length_of_absent x vd wb.vertex_lookup hvlx, hlen]
          simp
        · intro y hy hya
          dsimp only
          rcases List.mem_append.mp hy with hyp | hyx
          · obtain ⟨u', ed', du', hl, hu', hd1, hd2⟩ := hbel y hyp hya
            exact ⟨u', ed', du', hl, List.mem_append.mpr (Or.inl hu'), hd1, hd2⟩
          · exfalso
            have hyeq : y = x := List.mem_singleton.mp hyx
            rw [hyeq, hxa] at hya
            exact hya rfl
      obtain ⟨wb', hrun, hinv''⟩ := ih (pre ++ [(none, x)]) post
        (by rw [hdec]; simp) (fun t ht => hnb t (List.mem_cons_of_mem _ ht)) _ hinv'
      refine ⟨wb', hstep.trans hrun, ?_⟩
      have hassoc : pre ++ ((none : Option (Nat × Nat)), x) :: rest =
          (pre ++ [((none : Option (Nat × Nat)), x)]) ++ rest := by simp
      rw [hassoc]
      exact hinv''
    | some fe =>
      have hsh : ∃ u e du, ((some fe : Option (Nat × Nat)), x).1 = some (u, e) ∧
          (e, x) ∈ fwdOf g.forward_edges u ∧
          IsDist g.forward_edges a u du ∧ IsDist g.forward_edges a x (du + 1) := by
        rcases hpd with heq | hsh
        · exact absurd (congrArg Prod.fst heq) (by simp)
        · exact hsh
      obtain ⟨u, e, du, ht1, hmemE, hdu, hdx1⟩ := hsh
      have hfe : fe = (u, e) := by simpa using ht1
      subst hfe
      obtain ⟨ed, hed⟩ := Option.isSome_iff_exists.mp (hes u e rfl)
      have hu_pre : u ∈ pre.map (fun t => t.2) :=
        trace_parent_mem_pre g a pre (rest ++ post) (some (u, e), x) u e du hdec' rfl
          hdu hdx1
      have hve : (walkBuilderVisitor Data W).visit_edge wb u ed x =
          { wb with current_edge := some (u, ed, x) } := rfl
      have hvv : (walkBuilderVisitor Data W).visit_vertex
          { wb with current_edge := some (u, ed, x) } vd =
          { wb with vertex_lookup := ainsert x vd wb.vertex_lookup,
                    current_edge := none,
                    back_edge_lookup := ainsert x (u, ed, x) wb.back_edge_lookup } := by
        simp only [walkBuilderVisitor]
        rw [if_neg (show ¬ vd.id = wb.final_vertex_id by rw [hid, hfin]; exact hxb)]
        rw [hid]
      have hstep : runTrace g (walkBuilderVisitor Data W) wb
            ((some (u, e), x) :: rest) =
          runTrace g (walkBuilderVisitor Data W)
            { wb with vertex_lookup := ainsert x vd wb.vertex_lookup,
                      current_edge := none,
                      back_edge_lookup := ainsert x (u, ed, x) wb.back_edge_lookup }
            rest := by
        simp only [runTrace]
        rw [if_neg hterm, hvd]
        dsimp only
        rw [hed]
        dsimp only
        rw [hve, hvv]
      have hinv' : WBInv g a b
          ((pre ++ [((some (u, e) : Option (Nat × Nat)), x)]).map (fun t => t.2))
          { wb with vertex_lookup := ainsert x vd wb.vertex_lookup,
                    current_edge := none,
                    back_edge_lookup := ainsert x (u, ed, x) wb.back_edge_lookup } := by
        have hmap : (pre ++ [((some (u, e) : Option (Nat × Nat)), x)]).map (fun t => t.2) =
            pre.map (fun t => t.2) ++ [x] := by simp
        rw [hmap]
        refine ⟨hinit, hfin, rfl, hpath, ?_, ?_, ?_, ?_⟩
        · intro y hy
          dsimp only
          rcases List.mem_append.mp hy with hyp | hyx
          · have hyne : ¬ y = x := fun h => hx_not_pre (h ▸ hyp)
            rw [alookup_ainsert_ne x y vd wb.vertex_lookup hyne]
            exact hvl y hyp
          · have hyeq : y = x := List.mem_singleton.mp hyx
            subst hyeq
            rw [alookup_ainsert_self, hvd]
            exact ⟨rfl, rfl⟩
        · intro y w hy
          dsimp only at hy
          by_cases hyx : y = x
          · exact List.mem_append.mpr (Or.inr (by rw [hyx]; exact List.mem_singleton.mpr rfl))
          · rw [alookup_ainsert_ne x y vd wb.vertex_lookup hyx] at hy
            exact List.mem_append.mpr (Or.inl (hvl2 y w hy))
        · dsimp only
          rw [ainsert_length_of_absent x vd wb.vertex_lookup hvlx, hlen]
          simp
        · intro y hy hya
          dsimp only
          rcases List.mem_append.mp hy with hyp | hyx
          · obtain ⟨u', ed', du', hl, hu', hd1, hd2⟩ := hbel y hyp hya
            have hyne : ¬ y = x := fun h => hx_not_pre (h ▸ hyp)
            refine ⟨u', ed', du', ?_, List.mem_append.mpr (Or.inl hu'), hd1, hd2⟩
            rw [alookup_ainsert_ne x y (u, ed, x) wb.back_edge_lookup hyne]
            exact hl
          · have hyeq : y = x := List.mem_singleton.mp hyx
            subst hyeq
            refine ⟨u, ed, du, ?_, List.mem_append.mpr (Or.inl hu_pre), hdu, hdx1⟩
            rw [alookup_ainsert_self]
      obtain ⟨wb', hrun, hinv''⟩ := ih (pre ++ [(some (u, e), x)]) post
        (by rw [hdec]; simp) (fun t ht => hnb t (List.mem_cons_of_mem _ ht)) _ hinv'
      refine ⟨wb', hstep.trans hrun, ?_⟩
      have hassoc : pre ++ ((some (u, e) : Option (Nat × Nat)), x) :: rest =
          (pre ++ [((some (u, e) : Option (Nat × Nat)), x)]) ++ rest := by simp
      rw [hassoc]
      exact hinv''

/-! ### Visiting the target builds the optimal walk and stops the traversal -/

theorem runTrace_final_step {Data W : Type} (g : Graph Data W)
    (hwf : WellFormedB g = true) (a b : Nat)
    (ha : (alookup a g.vertices).isSome)
    (pre post : List Transition) (t : Transition)
    (hdec : bfsTrace g a = pre ++ t :: post) (htb : t.2 = b)
    (wb : WalkBuilder Data W) (hinv : WBInv g a b (pre.map (fun t => t.2)) wb)
    (k : Nat) (hk : IsDist g.forward_edges a b k) :
    ∃ w wb', runTrace g (walkBuilderVisitor Data W) wb (t :: post) = .ok wb' ∧
      wb'.path = some (.ok w) ∧
      w.edges.length = k ∧ w.vertices.length = k + 1 ∧
      w.vertices.head?.map (fun v => v.id) = some a ∧
      w.vertices.getLast? = alookup b g.vertices := by
  obtain ⟨me, x⟩ := t
  have htb' : x = b := htb
  subst htb'
  obtain ⟨hinit, hfin, hce, hpath, hvl, hvl2, hlen, hbel⟩ := hinv
  have ht_mem : ((me, x) : Transition) ∈ bfsTrace g a := by
    rw [hdec]
    exact List.mem_append.mpr (Or.inr (List.mem_cons_self _ _))
  obtain ⟨hvs, hes⟩ := bfsTrace_lookups g a hwf ha _ ht_mem
  obtain ⟨vd, hvd⟩ := Option.isSome_iff_exists.mp hvs
  have hid : vd.id = x := wf_vertex_id g hwf x vd hvd
  have hx_not_pre : ¬ x ∈ pre.map (fun t => t.2) :=
    visits_decomp_not_mem g a pre post (me, x) hdec
  have hvlx : alookup x wb.vertex_lookup = none :=
    alookup_none_of_not_mem_keys _ _ (fun v hv => hx_not_pre (hvl2 x v hv))
  have hterm : ¬ (walkBuilderVisitor Data W).should_terminate wb = true := by
    simp [walkBuilderVisitor, hpath]
  have hpd := bfsTrace_parent_dist g a (me, x) ht_mem
  cases me with
  | none =>
    have hxa : x = a := by
      rcases hpd with heq | ⟨u, e, du, h1, -⟩
      · exact congrArg Prod.snd heq
      · exact absurd h1 (by simp)
    have hk0 : k = 0 := by
      have := isDist_unique _ _ _ _ _ hk ((isDist_zero_iff _ _ _).mpr hxa)
      omega
    subst hk0
    have hvv : (walkBuilderVisitor Data W).visit_vertex wb vd =
        { wb with vertex_lookup := ainsert x vd wb.vertex_lookup,
                  current_edge := none,
                  path := some (build_path
                    { wb with vertex_lookup := ainsert x vd wb.vertex_lookup,
                              current_edge := none }) } := by
      simp only [walkBuilderVisitor]
      rw [hce]
      dsimp only
      rw [if_pos (show vd.id = wb.final_vertex_id by rw [hid, hfin])]
      rw [hid]
    have hbp : build_path
        ({ wb with vertex_lookup := ainsert x vd wb.vertex_lookup,
                   current_edge := none } : WalkBuilder Data W) =
        .ok { vertices := [vd], edges := [] } := by
      simp only [build_path]
      rw [hfin, alookup_ainsert_self]
      dsimp only
      simp only [buildPathLoop]
      rw [if_pos (show vd.id = wb.initial_vertex_id by rw [hid, hinit]; exact hxa)]
    have hstep : runTrace g (walkBuilderVisitor Data W) wb
          (((none : Option (Nat × Nat)), x) :: post) =
        runTrace g (walkBuilderVisitor Data W)
          { wb with vertex_lookup := ainsert x vd wb.vertex_lookup,
                    current_edge := none,
                    path := some (build_path
                      { wb with vertex_lookup := ainsert x vd wb.vertex_lookup,
                                current_edge := none }) } post := by
      simp only [runTrace]
      rw [if_neg hterm, hvd]
      dsimp only
      rw [hvv]
    have hterm2 : (walkBuilderVisitor Data W).should_terminate
        { wb with vertex_lookup := ainsert x vd wb.vertex_lookup,
                  current_edge := none,
                  path := some (build_path
                    { wb with vertex_lookup := ainsert x vd wb.vertex_lookup,
                              current_edge := none }) } = true := by
      simp [walkBuilderVisitor]
    refine ⟨{ vertices := [vd], edges := [] }, _,
      hstep.trans (runTrace_stop g _ _ hterm2 post), ?_, rfl, rfl, ?_, ?_⟩
    · dsimp only
      rw [hbp]
    · simp [hid, hxa]
    · simp [hvd]
  | some fe =>
    have hsh : ∃ u e du, ((some fe : Option (Nat × Nat)), x).1 = some (u, e) ∧
        (e, x) ∈ fwdOf g.forward_edges u ∧
        IsDist g.forward_edges a u du ∧ IsDist g.forward_edges a x (du + 1) := by
      rcases hpd with heq | hsh
      · exact absurd (congrArg Prod.fst heq) (by simp)
      · exact hsh
    obtain ⟨u, e, du, ht1, hmemE, hdu, hdx1⟩ := hsh
    have hfe : fe = (u, e) := by simpa using ht1
    subst hfe
    obtain ⟨ed, hed⟩ := Option.isSome_iff_exists.mp (hes u e rfl)
    have hu_pre : u ∈ pre.map (fun t => t.2) :=
      trace_parent_mem_pre g a pre post (some (u, e), x) u e du hdec rfl hdu hdx1
    have hkeq : k = du + 1 := by
      have := isDist_unique _ _ _ _ _ hk hdx1
      omega
    subst hkeq
    have hve : (walkBuilderVisitor Data W).visit_edge wb u ed x =
        { wb with current_edge := some (u, ed, x) } := rfl
    have hvv : (walkBuilderVisitor Data W).visit_vertex
        { wb with current_edge := some (u, ed, x) } vd =
        { wb with vertex_lookup := ainsert x vd wb.vertex_lookup,
                  current_edge := none,
                  back_edge_lookup := ainsert x (u, ed, x) wb.back_edge_lookup,
                  path := some (build_path
                    { wb with vertex_lookup := ainsert x vd wb.vertex_lookup,
                              current_edge := none,
                              back_edge_lookup :=
                                ainsert x (u, ed, x) wb.back_edge_lookup }) } := by
      simp only [walkBuilderVisitor]
      rw [if_pos (show vd.id = wb.final_vertex_id by rw [hid, hfin])]
      rw [hid]
    have hvl2' : ∀ y ∈ pre.map (fun t => t.2) ++ [x],
        alookup y (ainsert x vd wb.vertex_lookup) = alookup y g.vertices ∧
        (alookup y g.vertices).isSome := by
      intro y hy
      rcases List.mem_append.mp hy with hyp | hyx
      · have hyne : ¬ y = x := fun h => hx_not_pre (h ▸ hyp)
        rw [alookup_ainsert_ne x y vd wb.vertex_lookup hyne]
        exact hvl y hyp
      · have hyeq : y = x := List.mem_singleton.mp hyx
        subst hyeq
        rw [alookup_ainsert_self, hvd]
        exact ⟨rfl, rfl⟩
    have hbel2 : ∀ y ∈ pre.map (fun t => t.2) ++ [x], ¬ y = a →
        ∃ u' ed' du', alookup y (ainsert x (u, ed, x) wb.back_edge_lookup) =
            some (u', ed', y) ∧ u' ∈ pre.map (fun t => t.2) ++ [x] ∧
          IsDist g.forward_edges a u' du' ∧ IsDist g.forward_edges a y (du' + 1) := by
      intro y hy hya
      rcases List.mem_append.mp hy with hyp | hyx
      · obtain ⟨u', ed', du', hl, hu', hd1, hd2⟩ := hbel y hyp hya
        have hyne : ¬ y = x := fun h => hx_not_pre (h ▸ hyp)
        refine ⟨u', ed', du', ?_, List.mem_append.mpr (Or.inl hu'), hd1, hd2⟩
        rw [alookup_ainsert_ne x y (u, ed, x) wb.back_edge_lookup hyne]
        exact hl
      · have hyeq : y = x := List.mem_singleton.mp hyx
        subst hyeq
        refine ⟨u, ed, du, ?_, List.mem_append.mpr (Or.inl hu_pre), hdu, hdx1⟩
        rw [alookup_ainsert_self]
    have hwbT : WBInv g a x (pre.map (fun t => t.2) ++ [x])
        { wb with vertex_lookup := ainsert x vd wb.vertex_lookup,
                  current_edge := none,
                  back_edge_lookup := ainsert x (u, ed, x) wb.back_edge_lookup } :=
      ⟨hinit, hfin, rfl, hpath, hvl2', by
        intro y w hy
        dsimp only at hy
        by_cases hyx : y = x
        · exact List.mem_append.mpr (Or.inr (by rw [hyx]; exact List.mem_singleton.mpr rfl))
        · rw [alookup_ainsert_ne x y vd wb.vertex_lookup hyx] at hy
          exact List.mem_append.mpr (Or.inl (hvl2 y w hy)), by
        dsimp only
        rw [ainsert_length_of_absent x vd wb.vertex_lookup hvlx, hlen]
        simp, hbel2⟩
    have hxmem : x ∈ pre.map (fun t => t.2) ++ [x] :=
      List.mem_append.mpr (Or.inr (List.mem_singleton.mpr rfl))
    have hlen2 : (ainsert x vd wb.vertex_lookup).length =
        (pre.map (fun t => t.2) ++ [x]).length := by
      rw [ainsert_length_of_absent x vd wb.vertex_lookup hvlx, hlen]
      simp
    have hfuel : (du + 1) + 1 ≤ (ainsert x vd wb.vertex_lookup).length + 1 := by
      have hle := wb_dist_le_length g a (pre.map (fun t => t.2) ++ [x])
        { wb with vertex_lookup := ainsert x vd wb.vertex_lookup,
                  current_edge := none,
                  back_edge_lookup := ainsert x (u, ed, x) wb.back_edge_lookup }
        hbel2 (du + 1) x hdx1 hxmem
      rw [hlen2]
      omega
    obtain ⟨vpre, epre, hloop, hvplen, heplen, hhead⟩ :=
      buildPathLoop_spec g a (pre.map (fun t => t.2) ++ [x])
        { wb with vertex_lookup := ainsert x vd wb.vertex_lookup,
                  current_edge := none,
                  back_edge_lookup := ainsert x (u, ed, x) wb.back_edge_lookup }
        hwf hinit hvl2' hbel2 (du + 1) x vd
        ((ainsert x vd wb.vertex_lookup).length + 1) [] [] hdx1 hxmem hvd hfuel
    have hw : buildPathLoop
        ({ wb with vertex_lookup := ainsert x vd wb.vertex_lookup,
                   current_edge := none,
                   back_edge_lookup := ainsert x (u, ed, x) wb.back_edge_lookup } :
          WalkBuilder Data W)
        ((ainsert x vd wb.vertex_lookup).length + 1) vd [] [] =
        .ok { vertices := vpre ++ [vd], edges := epre } := by
      rw [hloop]
      simp
    have hbp : build_path
        ({ wb with vertex_lookup := ainsert x vd wb.vertex_lookup,
                   current_edge := none,
                   back_edge_lookup := ainsert x (u, ed, x) wb.back_edge_lookup } :
          WalkBuilder Data W) =
        .ok { vertices := vpre ++ [vd], edges := epre } := by
      simp only [build_path]
      have hlook2 : alookup wb.final_vertex_id (ainsert x vd wb.vertex_lookup) =
          some vd := by
        rw [hfin, alookup_ainsert_self]
      rw [hlook2]
      dsimp only
      exact hw
    have hstep : runTrace g (walkBuilderVisitor Data W) wb
          ((some (u, e), x) :: post) =
        runTrace g (walkBuilderVisitor Data W)
          { wb with vertex_lookup := ainsert x vd wb.vertex_lookup,
                    current_edge := none,
                    back_edge_lookup := ainsert x (u, ed, x) wb.back_edge_lookup,
                    path := some (build_path
                      { wb with vertex_lookup := ainsert x vd wb.vertex_lookup,
                                current_edge := none,
                                back_edge_lookup :=
                                  ainsert x (u, ed, x) wb.back_edge_lookup }) }
          post := by
      simp only [runTrace]
      rw [if_neg hterm, hvd]
      dsimp only
      rw [hed]
      dsimp only
      rw [hve, hvv]
    have hterm2 : (walkBuilderVisitor Data W).should_terminate
        { wb with vertex_lookup := ainsert x vd wb.vertex_lookup,
                  current_edge := none,
                  back_edge_lookup := ainsert x (u, ed, x) wb.back_edge_lookup,
                  path := some (build_path
                    { wb with vertex_lookup := ainsert x vd wb.vertex_lookup,
                              current_edge := none,
                              back_edge_lookup :=
                                ainsert x (u, ed, x) wb.back_edge_lookup }) } = true := by
      simp [walkBuilderVisitor]
    refine ⟨{ vertices := vpre ++ [vd], edges := epre }, _,
      hstep.trans (runTrace_stop g _ _ hterm2 post), ?_, heplen, ?_, hhead, ?_⟩
    · dsimp only
      rw [hbp]
    · simp [hvplen]
    · rw [hvd]
      simp

/-! ### Assembling `find_path` -/

theorem find_path_run {Data W : Type} (g : Graph Data W) (a b : Nat)
    (ha : (alookup a g.vertices).isSome) (hb : (alookup b g.vertices).isSome) :
    find_path g a b =
      match runTrace g (walkBuilderVisitor Data W)
          ((walkBuilderVisitor Data W).reset (WalkBuilder.new Data W a b))
          (bfsTrace g a) with
      | .error e => .error e
      | .ok wb =>
        match wb.path with
        | none => .ok none
        | some (.ok w) => .ok (some w)
        | some (.error e) => .error e := by
  unfold find_path
  rw [if_pos ha, if_pos hb, bft_eq_runTrace g a _ _ ha]

theorem WBInv_new {Data W : Type} (g : Graph Data W) (a b : Nat) :
    WBInv g a b []
      ((walkBuilderVisitor Data W).reset (WalkBuilder.new Data W a b)) := by
  refine ⟨rfl, rfl, rfl, rfl, ?_, ?_, rfl, ?_⟩
  · intro x hx
    cases hx
  · intro x vd hx
    exact Option.noConfusion hx
  · intro x hx
    cases hx

theorem find_path_unreachable {Data W : Type} (g : Graph Data W)
    (hwf : WellFormedB g = true) (a b : Nat)
    (ha : (alookup a g.vertices).isSome) (hb : (alookup b g.vertices).isSome)
    (hnr : ¬ Reachable g.forward_edges a b) :
    find_path g a b = .ok none := by
  have hnb : ∀ t ∈ bfsTrace g a, ¬ t.2 = b := by
    intro t ht htb
    obtain ⟨-, hcomp, -, -⟩ := bfsVisits_spec g a
    have hbmem : b ∈ bfsVisits g a := by
      show b ∈ (bfsTrace g a).map (fun t => t.2)
      exact List.mem_map.mpr ⟨t, ht, htb⟩
    exact hnr ((hcomp b).mp hbmem)
  obtain ⟨wb', hrun, hinv'⟩ := runTrace_wb_seg g hwf a b ha (bfsTrace g a) [] []
    (by simp) hnb _ (WBInv_new g a b)
  obtain ⟨-, -, -, hpath', -, -, -, -⟩ := hinv'
  rw [find_path_run g a b ha hb, hrun]
  dsimp only
  rw [hpath']

theorem find_path_reachable {Data W : Type} (g : Graph Data W)
    (hwf : WellFormedB g = true) (a b : Nat)
    (ha : (alookup a g.vertices).isSome) (hb : (alookup b g.vertices).isSome)
    (k : Nat) (hk : IsDist g.forward_edges a b k) :
    ∃ w, find_path g a b = .ok (some w) ∧
      w.edges.length = k ∧ w.vertices.length = k + 1 ∧
      w.vertices.head?.map (fun v => v.id) = some a ∧
      w.vertices.getLast? = alookup b g.vertices := by
  have hbmem : b ∈ (bfsTrace g a).map (fun t => t.2) := by
    obtain ⟨-, hcomp, -, -⟩ := bfsVisits_spec g a
    exact (hcomp b).mpr ((reachable_iff_isDist _ _ _).mpr ⟨k, hk⟩)
  obtain ⟨t, ht, htb⟩ := List.mem_map.mp hbmem
  obtain ⟨pre, post, hdec⟩ := List.mem_iff_append.mp ht
  have hnbpre : ∀ t' ∈ pre, ¬ t'.2 = b := by
    intro t' ht' htb'
    have hnp := visits_decomp_not_mem g a pre post t hdec
    rw [htb] at hnp
    exact hnp (List.mem_map.mpr ⟨t', ht', htb'⟩)
  obtain ⟨wb1, hrun1, hinv1⟩ := runTrace_wb_seg g hwf a b ha pre [] (t :: post)
    (by rw [hdec]; simp) hnbpre _ (WBInv_new g a b)
  simp only [List.nil_append] at hinv1
  obtain ⟨w, wb2, hrun2, hpath2, hel, hvlcnt, hhead, hlast⟩ :=
    runTrace_final_step g hwf a b ha pre post t hdec htb wb1 hinv1 k hk
  refine ⟨w, ?_, hel, hvlcnt, hhead, hlast⟩
  rw [find_path_run g a b ha hb, hdec,
    runTrace_append g (walkBuilderVisitor Data W) pre (t :: post) _, hrun1]
  dsimp only
  rw [hrun2]
  dsimp only
  rw [hpath2]

/-! ### Claims C2 and C10 -/

/-- C2: for every well-formed graph with vertices `a` and `b` both present,
`find_path g a b` returns `none` exactly when `b` is unreachable from `a`;
whenever the minimum hop count (BFS distance) from `a` to `b` is `k`, it
returns a walk with exactly `k` edges and `k + 1` vertices whose first vertex
is `a` and whose last vertex is `b`; and it always returns without a panic.
The edge count equals the hop distance `IsDist`, a notion defined from the
adjacency structure alone, so the weight payloads carried on the edges are
inert to the result. -/
theorem claim_C2_find_path {Data W : Type} (g : Graph Data W)
    (hwf : WellFormedB g = true) (a b : Nat)
    (ha : (alookup a g.vertices).isSome) (hb : (alookup b g.vertices).isSome) :
    (find_path g a b = .ok none ↔ ¬ Reachable g.forward_edges a b) ∧
    (∀ k, IsDist g.forward_edges a b k →
      ∃ w, find_path g a b = .ok (some w) ∧
        w.edges.length = k ∧ w.vertices.length = k + 1 ∧
        w.vertices.head?.map (fun v => v.id) = some a ∧
        w.vertices.getLast?.map (fun v => v.id) = some b) ∧
    ∃ r, find_path g a b = .ok r := by
  refine ⟨⟨?_, find_path_unreachable g hwf a b ha hb⟩, ?_, ?_⟩
  · intro hok hreach
    obtain ⟨k, hk⟩ := (reachable_iff_isDist _ _ _).mp hreach
    obtain ⟨w, hw, -⟩ := find_path_reachable g hwf a b ha hb k hk
    rw [hok] at hw
    exact Option.noConfusion (Except.ok.inj hw)
  · intro k hk
    obtain ⟨w, hw, hel, hvlen, hhead, hlast⟩ :=
      find_path_reachable g hwf a b ha hb k hk
    obtain ⟨vd, hvd⟩ := Option.isSome_iff_exists.mp hb
    refine ⟨w, hw, hel, hvlen, hhead, ?_⟩
    rw [hvd] at hlast
    rw [hlast]
    simp [wf_vertex_id g hwf b vd hvd]
  · by_cases hreach : Reachable g.forward_edges a b
    · obtain ⟨k, hk⟩ := (reachable_iff_isDist _ _ _).mp hreach
      obtain ⟨w, hw, -⟩ := find_path_reachable g hwf a b ha hb k hk
      exact ⟨some w, hw⟩
    · exact ⟨none, find_path_unreachable g hwf a b ha hb hreach⟩

/-- C2 witness: the example graph is well-formed, vertices 1 and 5 are in it,
and the claim instantiates there (the 1→5 distance is 2, realized by the walk
1, 2, 5). -/
theorem claim_C2_find_path_witness :
    WellFormedB exGraph = true ∧
    ((find_path exGraph 1 5 = .ok none ↔ ¬ Reachable exGraph.forward_edges 1 5) ∧
      (∀ k, IsDist exGraph.forward_edges 1 5 k →
        ∃ w, find_path exGraph 1 5 = .ok (some w) ∧
          w.edges.length = k ∧ w.vertices.length = k + 1 ∧
          w.vertices.head?.map (fun v => v.id) = some 1 ∧
          w.vertices.getLast?.map (fun v => v.id) = some 5) ∧
      ∃ r, find_path exGraph 1 5 = .ok r) :=
  ⟨by decide, claim_C2_find_path exGraph (by decide) 1 5 (by decide) (by decide)⟩

/-- C10: for every well-formed graph and vertex `v` present in it with
descriptor `vd`, `find_path g v v` succeeds and returns the walk consisting
of exactly the single vertex `v` and no edges, which satisfies the walk
length invariant `edges.length = vertices.length - 1`. -/
theorem claim_C10_find_path_self {Data W : Type} (g : Graph Data W)
    (hwf : WellFormedB g = true) (v : Nat) (vd : VertexDescriptor Data)
    (hv : alookup v g.vertices = some vd) :
    ∃ w, find_path g v v = .ok (some w) ∧
      w.vertices = [vd] ∧ w.edges = [] ∧
      w.edges.length = w.vertices.length - 1 := by
  have hvs : (alookup v g.vertices).isSome := by rw [hv]; rfl
  obtain ⟨w, hw, hel, hvlen, -, hlast⟩ := find_path_reachable g hwf v v hvs hvs 0
    ((isDist_zero_iff _ _ _).mpr rfl)
  obtain ⟨y, hy⟩ := List.length_eq_one.mp (by simpa using hvlen)
  have hyvd : y = vd := by
    rw [hy, hv] at hlast
    simpa using hlast
  have hed : w.edges = [] := List.length_eq_zero.mp hel
  refine ⟨w, hw, by rw [hy, hyvd], hed, ?_⟩
  rw [hed, hy]
  rfl

/-- C10 witness: on the example graph, `find_path` from vertex 3 to itself
returns the single-vertex walk with no edges. -/
theorem claim_C10_find_path_self_witness :
    alookup 3 exGraph.vertices = some (⟨3, ()⟩ : VertexDescriptor Unit) ∧
    ∃ w, find_path exGraph 3 3 = .ok (some w) ∧
      w.vertices = [(⟨3, ()⟩ : VertexDescriptor Unit)] ∧ w.edges = [] ∧
      w.edges.length = w.vertices.length - 1 :=
  ⟨by decide, claim_C10_find_path_self exGraph (by decide) 3 ⟨3, ()⟩ (by decide)⟩

/-- C8 witness: `map_vertex` on the present vertex 0 of `pairGraph2`, and
failure on the absent id 5. -/
theorem claim_C8_map_vertex_witness :
    (∃ g', map_vertex pairGraph2 0 (fun u => u) = .ok g' ∧
      alookup 0 g'.vertices = some ((make_vertex 0 ()).map (fun u => u)) ∧
      (∀ k, ¬ k = 0 → alookup k g'.vertices = alookup k pairGraph2.vertices) ∧
      g'.edges = pairGraph2.edges ∧
      g'.forward_edges = pairGraph2.forward_edges ∧
      g'.backward_edges = pairGraph2.backward_edges ∧
      g'.vertex_id_registry = pairGraph2.vertex_id_registry ∧
      g'.edge_id_registry = pairGraph2.edge_id_registry) ∧
    map_vertex pairGraph2 5 (fun u => u) = .error () :=
  ⟨(claim_C8_map_vertex pairGraph2 0 (fun u => u)).1 (make_vertex 0 ()) rfl,
    (claim_C8_map_vertex pairGraph2 5 (fun u => u)).2 rfl⟩

end Rustbotics
